import Mathlib

/-!
# Verification of the `kvstore` LSM key-value store

Shallow embedding of the C++ sources under `src/inc/` (memtable.h, wal.h,
sstable.h, bloom_filters.h, kvstore.h) for sequential executions.  Machine
integers (`size_t`) are modelled as `Nat` with explicit reduction modulo
`2^64` wherever the C++ arithmetic can wrap; `int32_t` record indices are
modelled as `Int`; keys and value buffers are byte lists (`List Nat`).
Pointer structures (the lock-free skip list) are modelled as an arena
(`List SNode`) with node ids; the head sentinel is node 0, and a null
pointer is `none`.
-/

/-! ## 64-bit arithmetic helpers (`size_t` semantics) -/

/-- Modulus of `size_t` / `uint64_t` arithmetic. -/
def W64 : Nat := 2 ^ 64

/-- Addition of two `size_t` values (wraps modulo `2^64`). -/
def add64 (a b : Nat) : Nat := (a + b) % W64

/-- Subtraction of two `size_t` values (wraps modulo `2^64`). -/
def sub64 (a b : Nat) : Nat := (a % W64 + (W64 - b % W64)) % W64

/-! ## Byte-string comparison

`std::string_view::compare` / `operator<` compare byte-wise and then by
length: exactly lexicographic order on the byte sequences. -/

/-- Three-way lexicographic comparison of byte strings, the semantics of
`std::string_view::compare` (negative / zero / positive mapped to
`Ordering`). -/
def strCompare : List Nat → List Nat → Ordering
  | [], [] => Ordering.eq
  | [], _ :: _ => Ordering.lt
  | _ :: _, [] => Ordering.gt
  | a :: as, b :: bs =>
    if a < b then Ordering.lt
    else if b < a then Ordering.gt
    else strCompare as bs

/-- Strict lexicographic order on byte strings (`operator<`). -/
def lexLt (a b : List Nat) : Prop := strCompare a b = Ordering.lt

instance (a b : List Nat) : Decidable (lexLt a b) := by
  unfold lexLt; infer_instance

/-! ## Memtable: `skiptable` (src/inc/memtable.h)

The lock-free skip list is embedded for sequential executions: every CAS
succeeds, so the `insert_loop` retry never fires, and the thread-local
random level draw becomes an explicit `level` argument.  Nodes live in an
arena (`nodes : List SNode`); node 0 is the head sentinel
(`node head{this, std::string(), -1}`); a null `node*` is `none`.  The
`std::array<std::atomic<node*>, MAX_TABLE_LEVELS>` of forward links is
modelled as a total function `Nat → Option Nat` (zero-initialised to
null); `malloc` is modelled as succeeding exactly when the requested size
does not exceed the bytes available in the source buffer (reading past the
buffer, or a `2^64-1`-byte request from an underflowed size, fails). -/

/-- Maximum depth of the skip list (`MAX_TABLE_LEVELS`). -/
def MAX_TABLE_LEVELS : Nat := 16

/-- One skip-list node: immutable key, atomic record index (`int32_t`,
`-1` on the head sentinel), and the per-level forward links. -/
structure SNode where
  key : List Nat
  recIdx : Int
  next : Nat → Option Nat

/-- Configuration options of the memtable (`skiptable::config_opts`). -/
structure config_opts where
  writes_before_lock : Nat := 2000
  data_limit : Nat := 16 * 1024 * 1024
  total_data_limit : Nat := 160 * 1024 * 1024

/-- The memtable state.  `records` maps a slot index to the value bytes
copied into it (unwritten slots are the empty record `{nullptr, 0}`). -/
structure skiptable where
  config : config_opts
  nodes : List SNode
  records : Nat → List Nat
  total_data_size : Nat
  data_size : Nat
  is_locked : Bool
  next_record : Nat

namespace skiptable

/-- The `skiptable(config_opts const &)` constructor: head sentinel only,
all record slots pre-allocated empty. -/
def init (cfg : config_opts) : skiptable where
  config := cfg
  nodes := [⟨[], -1, fun _ => none⟩]
  records := fun _ => []
  total_data_size := 0
  data_size := 0
  is_locked := false
  next_record := 0

/-- Dereference a node id in the arena. -/
def nodeAt (t : skiptable) (id : Nat) : Option SNode := t.nodes.get? id

/-- The key of the node with the given id (head/dangling ids give `[]`;
the algorithms never read those). -/
def keyOf (t : skiptable) (id : Nat) : List Nat :=
  match t.nodeAt id with
  | some n => n.key
  | none => []

/-- The record index of the node with the given id. -/
def recIdxOf (t : skiptable) (id : Nat) : Int :=
  match t.nodeAt id with
  | some n => n.recIdx
  | none => -1

/-- `node::iterate(level)`: the forward link of a node at a level. -/
def nodeNext (t : skiptable) (id lvl : Nat) : Option Nat :=
  match t.nodeAt id with
  | some n => n.next lvl
  | none => none

/-- Replace the node stored at an id (no-op for a dangling id). -/
def modifyNode (t : skiptable) (id : Nat) (f : SNode → SNode) : skiptable :=
  match t.nodes.get? id with
  | some n => { t with nodes := t.nodes.set id (f n) }
  | none => t

/-- `node::update`: atomically exchange the record index of a node. -/
def setRecIdx (t : skiptable) (id : Nat) (r : Int) : skiptable :=
  t.modifyNode id fun n => { n with recIdx := r }

/-- `node::link` / a successful `node::CE_link`: point a node's forward
link at a level to a target. -/
def setNextLink (t : skiptable) (id lvl : Nat) (tgt : Option Nat) : skiptable :=
  t.modifyNode id fun n => { n with next := fun j => if j = lvl then tgt else n.next j }

/-- `skiptable::locked()`. -/
def locked (t : skiptable) : Bool :=
  decide (t.total_data_size ≥ t.config.total_data_limit)
    || decide (t.next_record ≥ t.config.writes_before_lock)
    || decide (t.data_size ≥ t.config.data_limit)
    || t.is_locked

/-- `skiptable::lock()`: exchange `is_locked` with `true`. -/
def lock (t : skiptable) : Bool × skiptable :=
  (t.is_locked, { t with is_locked := true })

/-- `skiptable::empty()`. -/
def empty (t : skiptable) : Bool := decide (t.data_size = 0)

/-- `skiptable::first(level)`: the first node of the chain at a level. -/
def first (t : skiptable) (lvl : Nat := 0) : Option Nat := t.nodeNext 0 lvl

/-- Follow forward links from `cur` for at most `fuel` steps, collecting
node ids.  With `fuel = t.nodes.length` this is total on every table the
sequential operations can build (the chain is duplicate-free). -/
def chainFrom (t : skiptable) (lvl : Nat) : Nat → Option Nat → List Nat
  | 0, _ => []
  | _ + 1, none => []
  | fuel + 1, some id => id :: chainFrom t lvl fuel (t.nodeNext id lvl)

/-- The full chain of node ids at a level, starting at the head's link. -/
def chain (t : skiptable) (lvl : Nat) : List Nat :=
  chainFrom t lvl t.nodes.length (t.nodeNext 0 lvl)

/-- The keys on the bottom-level chain, in traversal order. -/
def chainKeys (t : skiptable) : List (List Nat) := (t.chain 0).map t.keyOf

/-- Result of the per-level advance loop shared by `find` and `insert`:
either an exact key match (`comp == 0`) or the stopping position
(`updates[i]`, `update_nexts[i]`). -/
inductive AdvRes where
  | hit (m : Nat)
  | stop (n : Nat) (succ : Option Nat)
deriving Repr, DecidableEq

/-- The inner `while (true)` loop of `find`/`insert` at one level: advance
while the next key compares strictly less than the target; report an
equal key as a hit.  `fuel` bounds the traversal (sufficient fuel is
proved from the table invariant). -/
def advance (t : skiptable) (key : List Nat) (lvl : Nat) : Nat → Nat → AdvRes
  | 0, n => AdvRes.stop n (t.nodeNext n lvl)
  | fuel + 1, n =>
    match t.nodeNext n lvl with
    | none => AdvRes.stop n none
    | some m =>
      match strCompare key (t.keyOf m) with
      | Ordering.lt => AdvRes.stop n (some m)
      | Ordering.eq => AdvRes.hit m
      | Ordering.gt => advance t key lvl fuel m

/-- The level-descent of `skiptable::find`: process levels
`i-1, i-2, …, 0` starting from position `n`. -/
def findAux (t : skiptable) (key : List Nat) : Nat → Nat → Option Nat
  | 0, _ => none
  | i + 1, n =>
    match advance t key i t.nodes.length n with
    | AdvRes.hit m => some m
    | AdvRes.stop n' _ => findAux t key i n'

/-- `skiptable::find`: top-down search from `MAX_TABLE_LEVELS - 1`. -/
def find (t : skiptable) (key : List Nat) : Option Nat :=
  findAux t key MAX_TABLE_LEVELS 0

/-- Result of the search phase of `insert`: either the key was found on
some level (with the equal node), or the splice positions
`updates[i]`/`update_nexts[i]` for every level `i ≤ level`. -/
inductive SearchOut where
  | found (m : Nat)
  | splice (upd : Nat → Nat × Option Nat)

/-- The `insert_loop` search of `insert`: process levels `i, i-1, …, 0`
from position `n`, recording predecessor and successor per level. -/
def searchAux (t : skiptable) (key : List Nat) :
    Nat → Nat → (Nat → Nat × Option Nat) → SearchOut
  | 0, n, upd =>
    match advance t key 0 t.nodes.length n with
    | AdvRes.hit m => SearchOut.found m
    | AdvRes.stop n' succ =>
      SearchOut.splice (fun j => if j = 0 then (n', succ) else upd j)
  | i + 1, n, upd =>
    match advance t key (i + 1) t.nodes.length n with
    | AdvRes.hit m => SearchOut.found m
    | AdvRes.stop n' succ =>
      searchAux t key i n' (fun j => if j = i + 1 then (n', succ) else upd j)

/-- The splice loop of `insert`: for `i = level, …, 0` CAS
`updates[i]`'s level-`i` link from `update_nexts[i]` to the new node
(sequentially every CAS succeeds). -/
def spliceLinks (t : skiptable) (upd : Nat → Nat × Option Nat) (newId : Nat) :
    Nat → skiptable
  | 0 => t.setNextLink (upd 0).1 0 (some newId)
  | i + 1 => spliceLinks (t.setNextLink (upd (i + 1)).1 (i + 1) (some newId)) upd newId i

/-- `skiptable::insert` for a sequential execution.  `key` is the key,
`data` the bytes at the caller's pointer, `size` the requested size
(`memcpy(slot, data, size)` reads `size` bytes from `data`), and `level`
the value the thread-local random draw produced.  Returns the node
(`some id`) or failure (`none`, the C++ `nullptr`), with the new table
state. -/
def insert (t : skiptable) (key : List Nat) (data : List Nat) (size : Nat)
    (level : Nat) : Option Nat × skiptable :=
  if t.locked then (none, t)
  else
    let idx := t.next_record
    let t1 : skiptable := { t with next_record := idx + 1 }
    if size ≤ data.length then
      let t2 : skiptable :=
        { t1 with
          records := fun r => if r = idx then data.take size else t1.records r
          total_data_size := add64 t1.total_data_size size }
      match searchAux t2 key level 0 (fun _ => (0, none)) with
      | SearchOut.found m =>
        if t2.recIdxOf m > (idx : Int) then
          -- a more recent insert already won: pretend this one succeeded
          (some m, t2)
        else if t2.recIdxOf m < (idx : Int) then
          let old := (t2.recIdxOf m).toNat
          let t3 := t2.setRecIdx m idx
          let t4 : skiptable :=
            { t3 with
              data_size := add64 (sub64 t3.data_size (t3.records old).length) size }
          (some m, t4)
        else
          -- assert(false): record indices are never reused
          (none, t2)
      | SearchOut.splice upd =>
        let newId := t2.nodes.length
        let newNode : SNode :=
          { key := key
            recIdx := idx
            next := fun j => if j ≤ level then (upd j).2 else none }
        let t3 : skiptable := { t2 with nodes := t2.nodes ++ [newNode] }
        let t4 := spliceLinks t3 upd newId level
        let t5 : skiptable := { t4 with data_size := add64 t4.data_size size }
        (some newId, t5)
    else
      -- malloc failure: the slot was already reserved, nothing else happened
      (none, t1)

/-- `skiptable::get(node const *)`. -/
def getNode (t : skiptable) (onode : Option Nat) : Option (List Nat) :=
  match onode with
  | none => none
  | some id =>
    if t.recIdxOf id < 0 ∨ t.recIdxOf id ≥ (t.next_record : Int) then none
    else some (t.records (t.recIdxOf id).toNat)

/-- `skiptable::get(std::string_view)`. -/
def get (t : skiptable) (key : List Nat) : Option (List Nat) :=
  t.getNode (t.find key)

end skiptable

/-! ## Bloom filters (src/inc/bloom_filters.h)

The hash (`XXHash64::hash`, from the external header `xxhash64.h`) is an
uninterpreted parameter `H : List Nat → Nat → Nat` (data bytes, seed).
`hash_count` and `slice_bits` are computed by the C++ with `double`
arithmetic (`log`, `ceil`); floating point is outside the embedding, so a
filter's `slices`/`bps` pair is taken as given by the constructor, and the
scalable filter's creation of a scaled sub-filter is an abstract parameter
`mkSub`.  None of the claims below depend on the numeric values. -/

/-- The bit memory of a static filter (`static_filter::memory`): a byte
vector of `bit_count / CHAR_BIT + (bit_count % CHAR_BIT != 0)` bytes. -/
def byteCountFor (bitCount : Nat) : Nat :=
  bitCount / 8 + (if bitCount % 8 ≠ 0 then 1 else 0)

/-- `memory::check`: test a bit. -/
def bitCheck (bits : List Nat) (bitIdx : Nat) : Bool :=
  decide ((bits.getD (bitIdx / 8) 0) / 2 ^ (bitIdx % 8) % 2 = 1)

/-- `memory::set`: set a bit to 1 (bitwise or with `1 << (bit % 8)`). -/
def bitSet (bits : List Nat) (bitIdx : Nat) : List Nat :=
  bits.set (bitIdx / 8) ((bits.getD (bitIdx / 8) 0) ||| 2 ^ (bitIdx % 8))

/-- A static Bloom filter (`bloom_filters::static_filter`).  `slices` is
the hash count, `bps` the bits per slice, `seeds` the caller-supplied
seed array. -/
structure static_filter where
  capacity : Nat
  seeds : Nat → Nat
  slices : Nat
  bps : Nat
  bits : List Nat
  element_count : Nat

namespace static_filter

/-- Construct a filter with zeroed memory. -/
def init (capacity : Nat) (seeds : Nat → Nat) (slices bps : Nat) : static_filter where
  capacity := capacity
  seeds := seeds
  slices := slices
  bps := bps
  bits := List.replicate (byteCountFor (slices * bps)) 0
  element_count := 0

/-- `static_filter::hash_i`: the bit index for the `i`-th hash. -/
def hash_i (H : List Nat → Nat → Nat) (f : static_filter) (i : Nat)
    (data : List Nat) : Nat :=
  H data (f.seeds i) % f.bps + i * f.bps

/-- `static_filter::good()`. -/
def good (f : static_filter) : Bool := decide (f.element_count < f.capacity)

/-- `static_filter::count()`: declared `bool`, so the element count is
collapsed to zero / nonzero. -/
def count (f : static_filter) : Bool := decide (f.element_count ≠ 0)

/-- `static_filter::might_contain`. -/
def might_contain (H : List Nat → Nat → Nat) (f : static_filter)
    (data : List Nat) : Bool :=
  (List.range f.slices).all fun i => bitCheck f.bits (hash_i H f i data)

/-- `static_filter::insert`: `check_set` every slice's bit, report whether
all were already set, and bump the element count if not. -/
def insert (H : List Nat → Nat → Nat) (f : static_filter) (data : List Nat) :
    Bool × static_filter :=
  let all_set := (List.range f.slices).all fun i => bitCheck f.bits (hash_i H f i data)
  let bits' := (List.range f.slices).foldl (fun b i => bitSet b (hash_i H f i data)) f.bits
  let f' : static_filter :=
    { f with
      bits := bits'
      element_count := if all_set then f.element_count else f.element_count + 1 }
  (all_set, f')

/-- `static_filter::insert_new`. -/
def insert_new (H : List Nat → Nat → Nat) (f : static_filter)
    (data : List Nat) : static_filter :=
  { f with
    element_count := f.element_count + 1
    bits := (List.range f.slices).foldl (fun b i => bitSet b (hash_i H f i data)) f.bits }

end static_filter

/-- A scalable Bloom filter (`bloom_filters::scalable_filter`): a growing
list of static filters.  The constructor seeds the list with one filter. -/
structure scalable_filter where
  filters : List static_filter

namespace scalable_filter

/-- `scalable_filter::count()`: sum of the `bool`-typed sub-filter
counts. -/
def count (F : scalable_filter) : Nat :=
  F.filters.foldl (fun c f => c + (if f.count then 1 else 0)) 0

/-- `scalable_filter::capacity()`. -/
def capacity (F : scalable_filter) : Nat :=
  F.filters.foldl (fun c f => c + f.capacity) 0

/-- `scalable_filter::might_contain`: membership in any sub-filter. -/
def might_contain (H : List Nat → Nat → Nat) (F : scalable_filter)
    (data : List Nat) : Bool :=
  F.filters.any fun f => f.might_contain H data

/-- Replace the last element of a list (the `filters.back()` mutation). -/
def setLast (l : List static_filter) (f : static_filter) : List static_filter :=
  l.take (l.length - 1) ++ [f]

/-- `scalable_filter::insert`.  `mkSub` is the creation of the scaled
sub-filter (`static_filter{new_params}` with capacity multiplied by the
scaling factor and error rate tightened; the float parameter computation
is abstracted). -/
def insert (H : List Nat → Nat → Nat) (mkSub : static_filter → static_filter)
    (F : scalable_filter) (data : List Nat) : Bool × scalable_filter :=
  if F.might_contain H data then (true, F)
  else
    match F.filters.getLast? with
    | none => (false, F)  -- unreachable: the constructor seeds one filter
    | some back =>
      let fs := if back.good then F.filters else F.filters ++ [mkSub back]
      match fs.getLast? with
      | none => (false, F)  -- unreachable
      | some back' =>
        (false, ⟨setLast fs (back'.insert_new H data)⟩)

end scalable_filter

/-! ## SSTable (src/inc/sstable.h)

The on-disk file is a byte list.  `build` serialises a locked memtable by
walking the bottom level of its skip list; `get` memory-maps the file and
searches it.  Reads are modelled byte-exactly: a read that touches byte
offsets outside the file (the C++ would read unmapped memory), a failed
`assert`, or a `std::string_view::substr` with `pos > size` (which
throws) are all reported as `none`; `some none` is get's `return false`,
`some (some v)` its `return true` with the copied value.  Little-endian
integers, no struct padding (`uint32, uint32, uint64` pack to 16 bytes). -/

namespace entry_header

/-- `entry_header::padding_bytes`:
`sizeof(uint64_t) - (data_size % sizeof(uint64_t))`. -/
def padding_bytes (data_size : Nat) : Nat := 8 - data_size % 8

end entry_header

/-- Encode a `uint32` little-endian. -/
def u32le (n : Nat) : List Nat :=
  [n % 256, n / 256 % 256, n / 256 ^ 2 % 256, n / 256 ^ 3 % 256]

/-- Encode a `uint64` little-endian. -/
def u64le (n : Nat) : List Nat :=
  [n % 256, n / 256 % 256, n / 256 ^ 2 % 256, n / 256 ^ 3 % 256,
   n / 256 ^ 4 % 256, n / 256 ^ 5 % 256, n / 256 ^ 6 % 256, n / 256 ^ 7 % 256]

/-- Decode a little-endian byte list. -/
def decodeLE (bs : List Nat) : Nat := bs.foldr (fun b acc => b % 256 + 256 * acc) 0

/-- Read `n` bytes at offset `off`; `none` when the range leaves the
file. -/
def bytesAt (file : List Nat) (off n : Nat) : Option (List Nat) :=
  if off + n ≤ file.length then some ((file.drop off).take n) else none

/-- Read a `uint64` at a byte offset. -/
def readU64 (file : List Nat) (off : Nat) : Option Nat :=
  (bytesAt file off 8).map decodeLE

/-- Read a `uint32` at a byte offset. -/
def readU32 (file : List Nat) (off : Nat) : Option Nat :=
  (bytesAt file off 4).map decodeLE

/-- Read an `entry_header` (prefix_bytes, suffix_bytes, value_bytes). -/
def readHdr (file : List Nat) (off : Nat) : Option (Nat × Nat × Nat) :=
  match readU32 file off, readU32 file (off + 4), readU64 file (off + 8) with
  | some pb, some sb, some vb => some (pb, sb, vb)
  | _, _, _ => none

namespace sst

/-- `footer::MAGIC_NUMBER`. -/
def MAGIC_NUMBER : Nat := 0x677265676F727968

/-- The shared-byte loop of `sstable::header_from`. -/
def commonPrefixLen : List Nat → List Nat → Nat
  | a :: as, b :: bs => if a = b then commonPrefixLen as bs + 1 else 0
  | _, _ => 0

/-- Accumulator state of `sstable::build`'s write loop. -/
structure BuildSt where
  out : List Nat
  blocks : Nat
  key_bytes : Nat
  data_bytes : Nat
  entries : Nat
  pfx : List Nat
  block_bytes : Nat
  idx_offsets : List Nat

/-- The empty build state. -/
def BuildSt.start : BuildSt := ⟨[], 0, 0, 0, 0, [], 0, []⟩

/-- Close the current block: zero-fill up to
`max_block_size - footer_bytes`, then write the index offsets and the
index count. -/
def closeBlock (max : Nat) (st : BuildSt) : BuildSt :=
  let idx_count := st.idx_offsets.length
  let footer_bytes := 8 * (idx_count + 1)
  let bound := sub64 max footer_bytes
  { st with
    out := st.out ++ List.replicate (bound - st.block_bytes) 0
        ++ (st.idx_offsets.map u64le).flatten ++ u64le idx_count
    blocks := st.blocks + 1
    block_bytes := 0
    idx_offsets := []
    pfx := [] }

/-- One iteration of `sstable::build`'s write loop for a node with the
given key and record value.  The entry header is computed (mutating the
running index-key `pfx` exactly as `header_from` does) before the
block-overflow check, so an entry that opens a new block keeps the
header computed against the previous block's index key. -/
def buildStep (max : Nat) (st : BuildSt) (kv : List Nat × List Nat) : BuildSt :=
  let key := kv.1
  let value := kv.2
  let pb := if st.pfx.isEmpty then 0 else commonPrefixLen st.pfx key
  let pfx1 := if st.pfx.isEmpty then key else st.pfx
  let sb := key.length - pb
  let vb := value.length
  let idx_key := pb = 0
  let entry_bytes := 16 + sb + entry_header.padding_bytes sb
      + vb + entry_header.padding_bytes vb
  let st0 : BuildSt :=
    { st with
      key_bytes := st.key_bytes + key.length
      data_bytes := st.data_bytes + vb
      entries := st.entries + 1
      pfx := pfx1 }
  let st1 :=
    if st0.block_bytes >
        sub64 (sub64 (sub64 (sub64 max entry_bytes) (if idx_key then 8 else 0))
          (8 * st0.idx_offsets.length)) 8
    then closeBlock max st0 else st0
  let st2 :=
    if idx_key then { st1 with idx_offsets := st1.idx_offsets ++ [st1.block_bytes] }
    else st1
  { st2 with
    out := st2.out ++ u32le pb ++ u32le sb ++ u64le vb
        ++ (key.drop pb).take sb ++ List.replicate (entry_header.padding_bytes sb) 0
        ++ value ++ List.replicate (entry_header.padding_bytes vb) 0
    block_bytes := st2.block_bytes + entry_bytes }

/-- The record value bytes a node contributes to `build`
(`table.get(n)`; dereferencing a null record is undefined and does not
arise for tables built by `insert`). -/
def nodeValueOf (t : skiptable) (id : Nat) : List Nat :=
  (t.getNode (some id)).getD []

/-- `sstable::build`: serialise a locked memtable.  Returns `none` when
the table is not locked (the C++ returns `false` and writes nothing). -/
def build (t : skiptable) (max : Nat) : Option (List Nat) :=
  if !t.locked then none
  else
    let kvs := (t.chain 0).map fun id => (t.keyOf id, nodeValueOf t id)
    let st := kvs.foldl (buildStep max) BuildSt.start
    let stF := if kvs.isEmpty then st else closeBlock max st
    some (stF.out ++ u64le max ++ u64le stF.blocks ++ u64le stF.entries
        ++ u64le stF.key_bytes ++ u64le stF.data_bytes ++ u64le MAGIC_NUMBER)

/-- The file footer (block_size, block_count, entry_count, key_bytes,
value_bytes, magic); `none` when fewer than 48 bytes exist. -/
def sstFooter (file : List Nat) : Option (Nat × Nat × Nat × Nat × Nat × Nat) :=
  if file.length < 48 then none
  else
    let fo := file.length - 48
    match readU64 file fo, readU64 file (fo + 8), readU64 file (fo + 16),
        readU64 file (fo + 24), readU64 file (fo + 32), readU64 file (fo + 40) with
    | some bs, some bc, some ec, some kb, some vb, some mg =>
      some (bs, bc, ec, kb, vb, mg)
    | _, _, _, _, _, _ => none

/-- The `for (; block < ftr->block_count; block++)` scan of
`sstable::get`: stop at the first block whose index key is strictly
greater than the target.  `none` marks an out-of-file read or a failed
`assert(hdr->prefix_bytes == 0)`. -/
def blockScan (file key : List Nat) (bs : Nat) : Nat → Nat → Option Nat
  | 0, block => some block
  | rem + 1, block =>
    let off := block * bs % W64
    match readHdr file off with
    | none => none
    | some (pb, sb, _) =>
      if pb ≠ 0 then none
      else
        match bytesAt file (off + 16) sb with
        | none => none
        | some k =>
          if lexLt key k then some block
          else blockScan file key bs rem (block + 1)

/-- The block `sstable::get` settles on: the scan result minus one
(`block -= 1`, a `size_t` decrement that wraps to `2^64 - 1` when the
scan stopped at block 0). -/
def blockSelect (file key : List Nat) : Option Nat :=
  match sstFooter file with
  | none => none
  | some (bs, bc, _, _, _, mg) =>
    if mg ≠ MAGIC_NUMBER then none
    else (blockScan file key bs bc 0).map fun b => sub64 b 1

/-- The index-offset scan inside the chosen block: find the last index
key not greater than the target, returning (sub-block offset, its index
key). -/
def subScan (file key : List Nat) (base bs idx_count : Nat) :
    Nat → Nat → List Nat → Option (Nat × List Nat)
  | 0, off, pfx => some (off, pfx)
  | rem + 1, off, pfx =>
    -- at loop index `idx`, `rem + 1` iterations remain, so
    -- `1 + idx_count - idx = rem + 2`
    let pos := sub64 (add64 base bs) (8 * (rem + 2))
    match readU64 file pos with
    | none => none
    | some noff =>
      match readHdr file (add64 base noff) with
      | none => none
      | some (pb, sb, _) =>
        if pb ≠ 0 then none
        else
          match bytesAt file (add64 base noff + 16) sb with
          | none => none
          | some k =>
            if lexLt key k then some (off, pfx)
            else subScan file key base bs idx_count rem noff k

/-- The `do … while (hdr->prefix_bytes != 0)` entry walk of
`sstable::get`.  The match condition is the C++ one:
`key.substr(0, pb) == prefix.substr(0, pb) && key.substr(pb, sb) == suffix`
(with short-circuit evaluation, and `substr` throwing when `pb`
exceeds the key length). -/
def entryWalk (file key pfx : List Nat) : Nat → Nat → Option (Option (List Nat))
  | 0, _ => none
  | fuel + 1, p =>
    match readHdr file p with
    | none => none
    | some (pb, sb, vb) =>
      match bytesAt file (p + 16) sb with
      | none => none
      | some suffix =>
        if key.take pb = pfx.take pb then
          if pb > key.length then none
          else if (key.drop pb).take sb = suffix then
            match bytesAt file (p + 16 + sb + entry_header.padding_bytes sb) vb with
            | none => none
            | some v => some (some v)
          else
            match readU32 file (p + 16 + sb + entry_header.padding_bytes sb
                + vb + entry_header.padding_bytes vb) with
            | none => none
            | some pb' =>
              if pb' = 0 then some none
              else entryWalk file key pfx fuel (p + 16 + sb + entry_header.padding_bytes sb
                  + vb + entry_header.padding_bytes vb)
        else
          match readU32 file (p + 16 + sb + entry_header.padding_bytes sb
              + vb + entry_header.padding_bytes vb) with
          | none => none
          | some pb' =>
            if pb' = 0 then some none
            else entryWalk file key pfx fuel (p + 16 + sb + entry_header.padding_bytes sb
                + vb + entry_header.padding_bytes vb)

/-- `sstable::get`: `some (some v)` is `return true` with value `v`,
`some none` is `return false`, `none` marks undefined behaviour (an
out-of-file read, a failed assert, or a thrown `substr`). -/
def sstGet (file key : List Nat) : Option (Option (List Nat)) :=
  match sstFooter file with
  | none => none
  | some (bs, bc, _, _, _, mg) =>
    if mg ≠ MAGIC_NUMBER then none
    else
      match blockScan file key bs bc 0 with
      | none => none
      | some b =>
        let block := sub64 b 1
        let base := block * bs % W64
        match readU64 file (sub64 (add64 base bs) 8) with
        | none => none
        | some idx_count =>
          match subScan file key base bs idx_count idx_count 0 [] with
          | none => none
          | some (off, pfx) =>
            entryWalk file key pfx (file.length + 1) (add64 base off)

end sst

/-! ## Write-ahead log (src/inc/wal.h)

`walfile::log` in a sequential execution: the producer enqueues the node
under the shared lock, then the same thread takes the exclusive lock and
drains the whole queue, writing `n->key` followed by `std::endl` (one
`'\n'` byte) and then the raw value bytes — so each call appends
`key ++ [10] ++ value` to the file.  `walfile::load` parses the file with
`std::getline` (which extracts and DISCARDS the `'\n'` delimiter) through
an input-stream model tracking `eofbit`/`failbit`. -/

/-- The byte trace one sequential `walfile::log` call appends. -/
def walLog (file key value : List Nat) : List Nat := file ++ key ++ [10] ++ value

/-- A `std::ifstream` over the log bytes. -/
structure IStream where
  data : List Nat
  pos : Nat
  eofbit : Bool
  failbit : Bool

/-- `std::ios::good()`. -/
def IStream.good (s : IStream) : Bool := !s.eofbit && !s.failbit

/-- `std::getline(stream, str)`: read up to the next `'\n'`, extracting
and discarding the delimiter; reaching end-of-data sets `eofbit`, and
extracting no characters at all also sets `failbit`. -/
def getline (s : IStream) : List Nat × IStream :=
  if !s.good then ([], { s with failbit := true })
  else if s.data.length ≤ s.pos then ([], { s with eofbit := true, failbit := true })
  else
    let rest := s.data.drop s.pos
    let line := rest.takeWhile (fun b => b ≠ 10)
    if line.length < rest.length then
      (line, { s with pos := s.pos + line.length + 1 })
    else
      (line, { s with pos := s.data.length, eofbit := true })

/-- The `while (file.good())` accumulation loop of `walfile::load`:
alternate `getline` calls for key and value, appending every pair. -/
def loadPairsAux : Nat → IStream → List (List Nat × List Nat) →
    List (List Nat × List Nat)
  | 0, _, acc => acc
  | fuel + 1, s, acc =>
    if s.good then
      let (key, s1) := getline s
      let (value, s2) := getline s1
      loadPairsAux fuel s2 (acc ++ [(key, value)])
    else acc

/-- All (key line, value line) pairs `walfile::load` reads from a log. -/
def walLoadPairs (data : List Nat) : List (List Nat × List Nat) :=
  loadPairsAux (data.length + 2) ⟨data, 0, false, false⟩ []

/-- The insertion loop of `walfile::load` over the reversed pairs:
skip keys already seen, then
`table.insert(kv.first.substr(0, kv.first.size() - 1),
(void*)kv.second.data(), kv.second.size() - 1)` — the `size_t`
subtractions wrap on empty strings, and `substr` clamps its count.
`lvl` stands for the thread-local random level draw. -/
def walLoadGo (lvl : Nat) : List (List Nat × List Nat) → List (List Nat) →
    skiptable → skiptable
  | [], _, t => t
  | (k, v) :: rest, ins, t =>
    if k ∈ ins then walLoadGo lvl rest ins t
    else
      let t' := (t.insert (k.take (sub64 k.length 1)) v (sub64 v.length 1) lvl).2
      walLoadGo lvl rest (ins ++ [k]) t'

/-- `walfile::load`: parse the log and replay it into the memtable,
newest observation per key first. -/
def walLoad (data : List Nat) (t : skiptable) (lvl : Nat) : skiptable :=
  walLoadGo lvl (walLoadPairs data).reverse [] t

/-! ## Store coordinator: `kvstore` (src/inc/kvstore.h)

Sequential model of the coordinator: the active memtable, the history
stack (head = newest), the SSTable set as the `std::priority_queue`'s
underlying vector (`get` iterates it in vector order through the
pass-through `begin()`/`end()`), the current WAL bytes, and a monotonic
clock standing for `std::chrono::steady_clock::now()` that the `sstable`
constructor samples for the file timestamp.  The background thread's
flush is the explicit `flush_memtables` step. -/

/-- An SSTable handle: creation timestamp and file bytes
(handles order by timestamp). -/
structure sstFile where
  t : Nat
  bytes : List Nat

/-- `kvstore::config_options` (directories and the background period are
not part of the sequential model). -/
structure kv_config where
  memtable_options : config_opts := {}
  max_block_size : Nat := 4 * 1024 * 1024
  memtable_history : Nat := 2

/-- The coordinator state. -/
structure kvstore where
  config : kv_config
  mtable : skiptable
  hist : List skiptable
  sstq : List sstFile
  wal : List Nat
  clock : Nat

namespace kvstore

/-- A freshly constructed store over empty directories. -/
def init (cfg : kv_config) : kvstore where
  config := cfg
  mtable := skiptable.init cfg.memtable_options
  hist := []
  sstq := []
  wal := []
  clock := 0

/-- The sift-up of `std::push_heap` (max-heap on the timestamp
`operator<`): while the hole is not the root and the parent compares
less than the value, move the parent down. -/
def heapSiftUp (v : List sstFile) (x : sstFile) : Nat → Nat → List sstFile
  | _, 0 => v.set 0 x
  | 0, p => v.set p x
  | fuel + 1, p =>
    let parent := (p - 1) / 2
    match v.get? parent with
    | none => v.set p x
    | some pv =>
      if pv.t < x.t then heapSiftUp (v.set p pv) x fuel parent
      else v.set p x

/-- `std::priority_queue::push`: append then sift up. -/
def heapPush (v : List sstFile) (x : sstFile) : List sstFile :=
  heapSiftUp (v ++ [x]) x (v.length + 1) v.length

/-- `kvstore::save_memtable`: skip an empty active table, otherwise swap
in a fresh one, lock the old, and push it on the history stack head. -/
def save_memtable (S : kvstore) : kvstore :=
  if S.mtable.empty then S
  else
    { S with
      mtable := skiptable.init S.config.memtable_options
      hist := (S.mtable.lock).2 :: S.hist }

/-- The drain loop of `flush_memtables`: for each history entry newest to
oldest, construct an `sstable` (sampling the clock for its timestamp)
that builds the file from the locked memtable (`assert(built)`), and push
its handle into the priority queue. -/
def drainHist : kvstore → List skiptable → kvstore
  | S, [] => S
  | S, mt :: rest =>
    let file := (sst.build mt S.config.max_block_size).getD []
    drainHist
      { S with
        sstq := heapPush S.sstq ⟨S.clock, file⟩
        clock := S.clock + 1 }
      rest

/-- `kvstore::flush_memtables`: seal the active table, swap the WAL for a
fresh one (the old is deleted once the drain completes), atomically take
the whole history stack, and drain it newest-first into SSTables. -/
def flush_memtables (S : kvstore) : kvstore :=
  let S1 := save_memtable S
  drainHist { S1 with wal := [], hist := [] } S1.hist

/-- `kvstore::put` with the unbounded retry loop cut at one rotation: on
insert failure rotate the memtable and retry once; a second failure means
the fresh table is itself locked, on which the C++ retries forever
(`none` marks that divergence).  On success the node is handed to
`wal->log`.  `lvl` is the random level draw.  Returns the inserted node
id and the new state. -/
def put (S : kvstore) (key data : List Nat) (size lvl : Nat) :
    Option (Nat × kvstore) :=
  match S.mtable.insert key data size lvl with
  | (some n, t') =>
    let v := (t'.getNode (some n)).getD []
    some (n, { S with mtable := t', wal := walLog S.wal (t'.keyOf n) v })
  | (none, t') =>
    let S1 := save_memtable { S with mtable := t' }
    match S1.mtable.insert key data size lvl with
    | (some n, t2) =>
      let v := (t2.getNode (some n)).getD []
      some (n, { S1 with mtable := t2, wal := walLog S1.wal (t2.keyOf n) v })
    | (none, _) => none

/-- The history walk of `kvstore::get` (newest first). -/
def histGet : List skiptable → List Nat → Option (List Nat)
  | [], _ => none
  | t :: rest, key =>
    match t.get key with
    | some v => some v
    | none => histGet rest key

/-- The SSTable scan of `kvstore::get`: iterate the priority queue's
underlying vector in order, first hit wins.  `none` propagates undefined
behaviour inside `sstable::get`. -/
def sstScan : List sstFile → List Nat → Option (Option (List Nat))
  | [], _ => some none
  | f :: rest, key =>
    match sst.sstGet f.bytes key with
    | none => none
    | some (some v) => some (some v)
    | some none => sstScan rest key

/-- `kvstore::get`: active memtable, then history newest-to-oldest, then
the SSTable set in the queue's iteration order. -/
def get (S : kvstore) (key : List Nat) : Option (Option (List Nat)) :=
  match S.mtable.get key with
  | some v => some (some v)
  | none =>
    match histGet S.hist key with
    | some v => some (some v)
    | none => sstScan S.sstq key

end kvstore

/-! ## Auxiliary definitions used by the verification -/

namespace skiptable

/-- Decide that `l` is exactly the maximal chain of forward links at
level `lvl` from `cur` to `endc`. -/
def chainSeg (t : skiptable) (lvl : Nat) : List Nat → Option Nat → Option Nat → Bool
  | [], cur, endc => cur == endc
  | j :: l, cur, endc => (cur == some j) && chainSeg t lvl l (t.nodeNext j lvl) endc

/-- Run a sequence of `insert` operations
(key, data bytes, requested size, random level), returning the final
table and the keys of the inserts that returned a node (the live
keys). -/
def runInserts : skiptable → List (List Nat × List Nat × Nat × Nat) →
    skiptable × List (List Nat)
  | t, [] => (t, [])
  | t, (k, d, s, l) :: rest =>
    match t.insert k d s l with
    | (some _, t') =>
      let r := runInserts t' rest
      (r.1, k :: r.2)
    | (none, t') => runInserts t' rest

/-- The structural invariant of a sequentially built `skiptable`:
the fueled `chain` computation at every level is the complete link
chain, bottom-level keys are strictly ascending, every level's chain is
a sublist of the one below, chain ids are live non-head arena slots, and
every chained node holds an allocated record index. -/
structure Inv (t : skiptable) : Prop where
  hlen : 0 < t.nodes.length
  chains : ∀ lvl, chainSeg t lvl (t.chain lvl) (t.nodeNext 0 lvl) none = true
  sorted : List.Pairwise lexLt ((t.chain 0).map t.keyOf)
  nested : ∀ lvl, (t.chain (lvl + 1)).Sublist (t.chain lvl)
  valid : ∀ id ∈ t.chain 0, 1 ≤ id ∧ id < t.nodes.length
  recs : ∀ id ∈ t.chain 0, 0 ≤ t.recIdxOf id ∧ t.recIdxOf id < (t.next_record : Int)

/-- The keys of a list of node ids. -/
def keysOf (t : skiptable) (l : List Nat) : List (List Nat) := l.map t.keyOf

/-- The advance predicate: the search key compares strictly greater than
the node's key (`comp > 0`), i.e. the node's key is below the target. -/
def gtb (t : skiptable) (key : List Nat) (id : Nat) : Bool :=
  strCompare key (t.keyOf id) == Ordering.gt

/-- The part of a level's chain strictly below the search key. -/
def Cpart (t : skiptable) (key : List Nat) (lvl : Nat) : List Nat :=
  (t.chain lvl).filter fun id => decide (lexLt (t.keyOf id) key)

/-- The part of a level's chain strictly above the search key. -/
def Dpart (t : skiptable) (key : List Nat) (lvl : Nat) : List Nat :=
  (t.chain lvl).filter fun id => decide (lexLt key (t.keyOf id))

/-- Position invariant of the top-down searches: the current node is the
head, or a chained node whose key is strictly below the target. -/
def PosOk (t : skiptable) (key : List Nat) (lvl n : Nat) : Prop :=
  n = 0 ∨ (n ∈ t.chain lvl ∧ lexLt (t.keyOf n) key)

/-- The table produced by the splice branch of `insert`: append the new
node to the arena and link it in at levels `0 … level`. -/
def insertedTable (t2 : skiptable) (key : List Nat) (upd' : Nat → Nat × Option Nat)
    (idx : Int) (level : Nat) : skiptable :=
  spliceLinks
    { t2 with
      nodes := t2.nodes ++
        [{ key := key, recIdx := idx
           next := fun j => if j ≤ level then (upd' j).2 else none }] }
    upd' t2.nodes.length level

end skiptable

namespace static_filter

/-- Well-formedness of a static filter's memory: a positive slice width
and the byte count the constructor allocates. -/
def WF (f : static_filter) : Prop :=
  0 < f.bps ∧ f.bits.length = byteCountFor (f.slices * f.bps)

end static_filter

/-- Run a sequence of `static_filter::insert` calls. -/
def applyStatic (H : List Nat → Nat → Nat) (f : static_filter)
    (ops : List (List Nat)) : static_filter :=
  ops.foldl (fun g d => (g.insert H d).2) f

/-- Run a sequence of `scalable_filter::insert` calls. -/
def applyScalable (H : List Nat → Nat → Nat) (mkSub : static_filter → static_filter)
    (F : scalable_filter) (ops : List (List Nat)) : scalable_filter :=
  ops.foldl (fun G d => (scalable_filter.insert H mkSub G d).2) F

/-! ## Concrete scenarios referenced by the verification -/

/-- Store configuration sealing the memtable after a single write, with
64-byte SSTable blocks. -/
def cfgStale : kv_config :=
  { memtable_options := { writes_before_lock := 1 }, max_block_size := 64 }

/-- First step of the stale-read scenario: `put("k", "1")`. -/
def staleStep1 : Option (Nat × kvstore) :=
  kvstore.put (kvstore.init cfgStale) [107] [49] 1 0

/-- Second step: `put("k", "2")` (rotates the sealed memtable). -/
def staleStep2 : Option (Nat × kvstore) :=
  staleStep1.bind fun p => kvstore.put p.2 [107] [50] 1 0

/-- Flush both memtables to SSTables, then `get("k")`. -/
def staleResult : Option (Option (Option (List Nat))) :=
  staleStep2.map fun p => kvstore.get (kvstore.flush_memtables p.2) [107]

/-- A concrete 64-bit hash standing in for `XXHash64::hash`: the first
data byte (seed ignored). -/
def bloomHashHead : List Nat → Nat → Nat := fun d _ => d.headD 0

/-- A concrete static filter: capacity 10, 2 slices of 8 bits. -/
def bloomStatic0 : static_filter := static_filter.init 10 (fun _ => 0) 2 8

/-- A concrete fresh scalable filter over one sub-filter of capacity 10,
1 slice of 8 bits. -/
def bloomScalable0 : scalable_filter := ⟨[static_filter.init 10 (fun _ => 0) 1 8]⟩

/-- A locked memtable holding `"ab" ↦ "B"` and `"abc" ↦ "C"` (one stored
key a strict prefix of the other). -/
def prefixPairTable : skiptable :=
  ((((skiptable.init {}).insert [97, 98] [66] 1 0).2.insert
    [97, 98, 99] [67] 1 0).2.lock).2

/-- A locked memtable holding the single pair `"b" ↦ "v"`. -/
def belowMinTable : skiptable :=
  (((skiptable.init {}).insert [98] [118] 1 0).2.lock).2

/-! # Theorems

## Byte-string order lemmas -/

theorem strCompare_self (a : List Nat) : strCompare a a = Ordering.eq := by
  induction a with
  | nil => rfl
  | cons x xs ih => simp [strCompare, ih]

theorem strCompare_eq_iff {a b : List Nat} : strCompare a b = Ordering.eq ↔ a = b := by
  constructor
  · intro h
    induction a generalizing b with
    | nil => cases b with
      | nil => rfl
      | cons y ys => simp [strCompare] at h
    | cons x xs ih =>
      cases b with
      | nil => simp [strCompare] at h
      | cons y ys =>
        by_cases hxy : x < y
        · simp [strCompare, hxy] at h
        · by_cases hyx : y < x
          · simp [strCompare, hxy, hyx] at h
          · have hx : x = y := Nat.le_antisymm (Nat.le_of_not_lt hyx) (Nat.le_of_not_lt hxy)
            simp only [strCompare, hxy, hyx, if_false] at h
            rw [hx, ih h]
  · intro h; subst h; exact strCompare_self a

theorem strCompare_swap (a b : List Nat) :
    strCompare b a = (strCompare a b).swap := by
  induction a generalizing b with
  | nil => cases b <;> rfl
  | cons x xs ih =>
    cases b with
    | nil => rfl
    | cons y ys =>
      by_cases hxy : x < y
      · have hyx : ¬ y < x := Nat.lt_asymm hxy
        simp [strCompare, hxy, hyx, Ordering.swap]
      · by_cases hyx : y < x
        · simp [strCompare, hxy, hyx, Ordering.swap]
        · simp [strCompare, hxy, hyx, ih ys]

theorem lexLt_iff_gt {a b : List Nat} :
    strCompare a b = Ordering.gt ↔ lexLt b a := by
  unfold lexLt
  rw [strCompare_swap b a]
  rcases h : strCompare b a with _ | _ | _ <;> simp [Ordering.swap]

theorem lexLt_trans {a b c : List Nat} (h1 : lexLt a b) (h2 : lexLt b c) : lexLt a c := by
  unfold lexLt at *
  induction a generalizing b c with
  | nil =>
    cases c with
    | nil =>
      cases b with
      | nil => exact absurd h1 (by simp [strCompare])
      | cons y ys => exact absurd h2 (by simp [strCompare])
    | cons z zs => rfl
  | cons x xs ih =>
    cases b with
    | nil => exact absurd h1 (by simp [strCompare])
    | cons y ys =>
      cases c with
      | nil => exact absurd h2 (by simp [strCompare])
      | cons z zs =>
        by_cases hxy : x < y
        · by_cases hyz : y < z
          · simp [strCompare, Nat.lt_trans hxy hyz]
          · by_cases hzy : z < y
            · simp only [strCompare, hyz, hzy, if_true, if_false] at h2
              exact absurd h2 (by simp)
            · have : y = z := Nat.le_antisymm (Nat.le_of_not_lt hzy) (Nat.le_of_not_lt hyz)
              subst this
              simp [strCompare, hxy]
        · by_cases hyx : y < x
          · simp only [strCompare, hxy, hyx, if_true, if_false] at h1
            exact absurd h1 (by simp)
          · have hx : x = y := Nat.le_antisymm (Nat.le_of_not_lt hyx) (Nat.le_of_not_lt hxy)
            subst hx
            simp only [strCompare, hxy, hyx, if_false] at h1 h2 ⊢
            by_cases hxz : x < z
            · simp [hxz]
            · by_cases hzx : z < x
              · simp only [hxz, hzx, if_true, if_false] at h2
                exact absurd h2 (by simp)
              · simp only [hxz, hzx, if_false] at h2 ⊢
                exact ih h1 h2

theorem lexLt_irrefl (a : List Nat) : ¬ lexLt a a := by
  unfold lexLt
  rw [strCompare_self]
  simp

theorem lexLt_ne {a b : List Nat} (h : lexLt a b) : a ≠ b := by
  intro heq; subst heq; exact lexLt_irrefl a h

theorem lexLt_asymm {a b : List Nat} (h : lexLt a b) : ¬ lexLt b a := by
  intro h2
  exact lexLt_irrefl a (lexLt_trans h h2)

theorem strCompare_cases (a b : List Nat) :
    lexLt a b ∨ a = b ∨ lexLt b a := by
  rcases h : strCompare a b with _ | _ | _
  · exact Or.inl h
  · exact Or.inr (Or.inl (strCompare_eq_iff.mp h))
  · exact Or.inr (Or.inr (lexLt_iff_gt.mp h))


set_option maxRecDepth 10000

/-! ## Claim C1: freshest value after flush -/

/-- C1: the claim "get(k) returns the value of the most recent put(k,…)
regardless of whether that value resides in the active memtable, a
history memtable, or an SSTable" fails once values reach SSTables.  With
`writes_before_lock = 1`, `put("k","1")` then `put("k","2")` leaves the
two versions in two history memtables (newest first); `flush_memtables`
drains the history newest-to-oldest, so the NEWER memtable is built into
the SSTable with the SMALLER timestamp, and the subsequent `get("k")`,
which searches SSTables newest-timestamp-first, returns the stale `"1"`
instead of the most recent `"2"`. -/
theorem kvstore_get_after_flush_returns_stale : staleStep1.isSome ∧ staleStep2.isSome ∧
    staleResult = some (some (some [49])) ∧ [49] ≠ [50] := by decide

/-! ## Claim C2: WAL log/load round trip -/

/-- C2: the claim "after walfile::log of an insert, walfile::load yields
a memtable in which every logged key is present with its value" fails on
the single newline-free insert `("a", "1")`.  `log` writes `a\n1`;
`load`'s `std::getline` already discards the `'\n'`, but the insertion
still strips a further byte from both strings
(`kv.first.substr(0, kv.first.size()-1)`, `kv.second.size()-1`), so the
table receives the pair `("", "")` and `get("a")` finds nothing. -/
theorem wal_load_drops_last_byte_of_key_and_value :
    (walLoad (walLog [] [97] [49]) (skiptable.init {}) 0).get [97] = none ∧
    (walLoad (walLog [] [97] [49]) (skiptable.init {}) 0).get [] = some [] ∧
    (walLoad (walLog [] [97] [49]) (skiptable.init {}) 0).chainKeys = [[]] := by decide

/-! ## Claim C3: memtable → SSTable → read round trip -/

/-- C3: the claim "sstable::get returns exactly the value the memtable
holds for every stored key" fails when one stored key is a strict prefix
of another.  From the locked memtable `{"ab" ↦ "B", "abc" ↦ "C"}`,
`get("abc")` on the built file returns `"B"`: the match condition
`key.substr(0, pb) == prefix.substr(0, pb) && key.substr(pb, sb) == suffix`
never compares the key lengths, so the entry for `"ab"` — visited first
in the sub-block walk — matches the longer search key `"abc"`. -/
theorem sstable_get_returns_prefix_key_value :
    prefixPairTable.get [97, 98, 99] = some [67] ∧
    (sst.build prefixPairTable 128).map (fun f => sst.sstGet f [97, 98, 99])
      = some (some (some [66])) ∧ [66] ≠ [67] := by decide

/-! ## Claim C9: block-locating scan stays in bounds -/

/-- C9: the claim "the block-locating scan never selects a block index
outside [0, block_count) and get terminates returning false for absent
keys" fails for a search key strictly below the smallest stored key.  On
the file built from `{"b" ↦ "v"}` (one block), `get("a")` breaks out of
the scan at block 0, then executes `block -= 1` on a `size_t`, selecting
block `2^64 - 1`; the following `idx_count` read is outside the mapped
file (the model reports the out-of-bounds access as `none`). -/
theorem sstable_get_below_min_key_underflows :
    (sst.build belowMinTable 64).map (fun f => (sst.blockSelect f [97], sst.sstGet f [97]))
      = some (some (2 ^ 64 - 1), none) := by decide

/-! ## Claim C6: entry padding -/

/-- C6 counterexample: the reference `entry_header::padding_bytes` is
`8 - (n % 8)`, not `(8 - (n % 8)) mod 8`: at `n = 8` it emits 8 padding
bytes, not 0. -/
theorem padding_bytes_at_eight_not_zero :
    entry_header.padding_bytes 8 ≠ (8 - 8 % 8) % 8 := by decide

/-- C6 (amended): the zero padding emitted after a key suffix of `n`
bytes and after a value of `n` bytes is exactly `8 - (n % 8)` bytes,
i.e. between 1 and 8 bytes; in particular 8 padding bytes are written
when `n` is already a multiple of 8 (and the padded length is always
8-byte aligned). -/
theorem padding_bytes_spec (n : Nat) :
    entry_header.padding_bytes n = 8 - n % 8 ∧
    1 ≤ entry_header.padding_bytes n ∧
    entry_header.padding_bytes n ≤ 8 ∧
    (n % 8 = 0 → entry_header.padding_bytes n = 8) ∧
    (n + entry_header.padding_bytes n) % 8 = 0 := by
  unfold entry_header.padding_bytes
  have h8 : n % 8 < 8 := Nat.mod_lt n (by decide)
  refine ⟨rfl, by omega, by omega, fun h => by omega, ?_⟩
  omega

/-- C6 witness: `padding_bytes_spec` applied at the aligned size 8. -/
theorem padding_bytes_spec_witness : entry_header.padding_bytes 8 = 8 :=
  (padding_bytes_spec 8).2.2.2.1 rfl

/-! ## Claim C5: locked() and insert on a locked table -/

/-- C5: `skiptable::locked()` returns true iff `total_data_size ≥
total_data_limit`, or `next_record ≥ writes_before_lock`, or
`data_size ≥ data_limit`, or `lock()` has been called (`is_locked`,
which `lock()` sets); and whenever `locked()` is true, `insert` returns
failure (`none`) with the table completely unchanged. -/
theorem locked_iff_thresholds_and_insert_rejected :
    (∀ t : skiptable,
      t.locked = true ↔
        (t.total_data_size ≥ t.config.total_data_limit ∨
         t.next_record ≥ t.config.writes_before_lock ∨
         t.data_size ≥ t.config.data_limit ∨
         t.is_locked = true)) ∧
    (∀ t : skiptable, ((t.lock).2).is_locked = true) ∧
    (∀ (t : skiptable) (key data : List Nat) (size level : Nat),
      t.locked = true → t.insert key data size level = (none, t)) := by
  refine ⟨fun t => ?_, fun t => rfl, fun t key data size level h => ?_⟩
  · simp [skiptable.locked, or_assoc]
  · simp [skiptable.insert, h]

/-- C5 witness: a table sealed by `writes_before_lock = 0` rejects an
insert and is returned unchanged. -/
theorem locked_iff_thresholds_and_insert_rejected_witness :
    (skiptable.init ⟨0, 16 * 1024 * 1024, 160 * 1024 * 1024⟩).insert [97] [49] 1 0
      = (none, skiptable.init ⟨0, 16 * 1024 * 1024, 160 * 1024 * 1024⟩) :=
  locked_iff_thresholds_and_insert_rejected.2.2 _ [97] [49] 1 0 (by decide)

/-! ## Claim C10: scalable_filter::count collapses per-filter counts -/

/-- C10: `scalable_filter::count()` sums the sub-filter counts, but
`static_filter::count()` is declared with return type `bool`, so each
sub-filter contributes at most 1: the sum is the number of sub-filters
holding at least one element.  Concretely, inserting the 2 distinct
elements `[0]` and `[1]` into a fresh scalable filter lands both in the
first (and only) sub-filter (`element_count = 2`), yet `count()` returns
1, not 2. -/
theorem scalable_count_counts_nonempty_subfilters :
    (∀ F : scalable_filter,
      F.count = F.filters.countP (fun f => f.count)) ∧
    ((applyScalable bloomHashHead id bloomScalable0 [[0], [1]]).filters.map
        (fun f => f.element_count) = [2] ∧
      (applyScalable bloomHashHead id bloomScalable0 [[0], [1]]).count = 1 ∧
      (1 : Nat) ≠ 2 ∧ ([0] : List Nat) ≠ [1]) := by
  constructor
  · intro F
    have gen : ∀ (l : List static_filter) (a : Nat),
        l.foldl (fun c f => c + (if f.count then 1 else 0)) a
          = a + l.countP (fun f => f.count) := by
      intro l
      induction l with
      | nil => simp
      | cons f fs ih =>
        intro a
        by_cases h : f.count
        · simp [List.countP_cons, h, ih]
          omega
        · simp [List.countP_cons, h, ih]
    simpa using gen F.filters 0
  · refine ⟨by decide, by decide, by decide, by decide⟩

/-! ## Bloom filter bit lemmas -/

theorem getD_set_self (l : List Nat) (k v : Nat) (h : k < l.length) :
    (l.set k v).getD k 0 = v := by
  induction l generalizing k with
  | nil => simp at h
  | cons a as ih =>
    cases k with
    | zero => rfl
    | succ k' => simpa using ih k' (by simpa using h)

theorem getD_set_other (l : List Nat) (k v j : Nat) (h : j ≠ k) :
    (l.set k v).getD j 0 = l.getD j 0 := by
  induction l generalizing k j with
  | nil => simp
  | cons a as ih =>
    cases k with
    | zero => cases j with
      | zero => exact absurd rfl h
      | succ j' => simp
    | succ k' =>
      cases j with
      | zero => simp
      | succ j' => simpa using ih k' j' (fun hh => h (by rw [hh]))

theorem bitCheck_eq_testBit (b : List Nat) (i : Nat) :
    bitCheck b i = (b.getD (i / 8) 0).testBit (i % 8) := by
  simp [bitCheck, Nat.testBit_to_div_mod]

theorem bitSet_length (b : List Nat) (i : Nat) : (bitSet b i).length = b.length := by
  simp [bitSet]

theorem bitCheck_bitSet_self (b : List Nat) (i : Nat) (h : i / 8 < b.length) :
    bitCheck (bitSet b i) i = true := by
  rw [bitCheck_eq_testBit, bitSet, getD_set_self _ _ _ h]
  simp [Nat.testBit_or]

theorem bitCheck_bitSet_mono (b : List Nat) (i j : Nat) (h : bitCheck b i = true) :
    bitCheck (bitSet b j) i = true := by
  rw [bitCheck_eq_testBit] at h ⊢
  unfold bitSet
  by_cases hij : i / 8 = j / 8
  · by_cases hlen : j / 8 < b.length
    · rw [hij, getD_set_self _ _ _ hlen]
      rw [hij] at h
      rw [Nat.testBit_or]
      simp only [List.getD, List.get?_eq_getElem?] at h
      simp [h]
    · rw [List.set_eq_of_length_le (Nat.le_of_not_lt hlen)]
      exact h
  · rw [getD_set_other _ _ _ _ hij]
    exact h

theorem foldl_bitSet_length (g : Nat → Nat) (l : List Nat) (b : List Nat) :
    (l.foldl (fun bb i => bitSet bb (g i)) b).length = b.length := by
  induction l generalizing b with
  | nil => rfl
  | cons j l' ih => simp [ih, bitSet_length]

theorem foldl_bitSet_mono (g : Nat → Nat) (l : List Nat) (b : List Nat) (x : Nat)
    (h : bitCheck b x = true) :
    bitCheck (l.foldl (fun bb i => bitSet bb (g i)) b) x = true := by
  induction l generalizing b with
  | nil => exact h
  | cons j l' ih => exact ih _ (bitCheck_bitSet_mono _ _ _ h)

theorem foldl_bitSet_sets (g : Nat → Nat) (l : List Nat) (b : List Nat) (i : Nat)
    (hi : i ∈ l) (hrange : g i / 8 < b.length) :
    bitCheck (l.foldl (fun bb j => bitSet bb (g j)) b) (g i) = true := by
  induction l generalizing b with
  | nil => simp at hi
  | cons j l' ih =>
    rcases List.mem_cons.mp hi with hij | hmem
    · subst hij
      exact foldl_bitSet_mono g l' _ _ (bitCheck_bitSet_self _ _ hrange)
    · exact ih _ hmem (by rwa [bitSet_length])

/-! ## Static filter lemmas -/

namespace static_filter

theorem insert_fields (H : List Nat → Nat → Nat) (f : static_filter) (d : List Nat) :
    ((f.insert H d).2).slices = f.slices ∧ ((f.insert H d).2).bps = f.bps ∧
    ((f.insert H d).2).seeds = f.seeds ∧ ((f.insert H d).2).capacity = f.capacity ∧
    ((f.insert H d).2).bits
      = (List.range f.slices).foldl (fun b i => bitSet b (hash_i H f i d)) f.bits := by
  simp [insert]

theorem insert_new_fields (H : List Nat → Nat → Nat) (f : static_filter) (d : List Nat) :
    (f.insert_new H d).slices = f.slices ∧ (f.insert_new H d).bps = f.bps ∧
    (f.insert_new H d).seeds = f.seeds ∧ (f.insert_new H d).capacity = f.capacity ∧
    (f.insert_new H d).bits
      = (List.range f.slices).foldl (fun b i => bitSet b (hash_i H f i d)) f.bits := by
  simp [insert_new]

theorem hash_i_lt (H : List Nat → Nat → Nat) (f : static_filter) (i : Nat)
    (d : List Nat) (hs : i < f.slices) (hb : 0 < f.bps) :
    hash_i H f i d / 8 < byteCountFor (f.slices * f.bps) := by
  have h1 : hash_i H f i d < f.slices * f.bps := by
    unfold hash_i
    have := Nat.mod_lt (H d (f.seeds i)) hb
    calc H d (f.seeds i) % f.bps + i * f.bps < f.bps + i * f.bps := by omega
    _ = (i + 1) * f.bps := by ring
    _ ≤ f.slices * f.bps := Nat.mul_le_mul_right _ hs
  unfold byteCountFor
  by_cases h8 : f.slices * f.bps % 8 = 0 <;> simp [h8] <;> omega

theorem might_contain_mono (H : List Nat → Nat → Nat) (f : static_filter)
    (x y : List Nat) (h : f.might_contain H x = true) :
    ((f.insert H y).2).might_contain H x = true := by
  unfold might_contain at h ⊢
  rw [List.all_eq_true] at h ⊢
  intro i hi
  have hf := insert_fields H f y
  rw [hf.1] at hi
  have heq : hash_i H ((f.insert H y).2) i x = hash_i H f i x := by
    unfold hash_i
    rw [hf.2.1, hf.2.2.1]
  rw [heq, hf.2.2.2.2]
  exact foldl_bitSet_mono _ _ _ _ (h i hi)

theorem might_contain_mono_new (H : List Nat → Nat → Nat) (f : static_filter)
    (x y : List Nat) (h : f.might_contain H x = true) :
    (f.insert_new H y).might_contain H x = true := by
  unfold might_contain at h ⊢
  rw [List.all_eq_true] at h ⊢
  intro i hi
  have hf := insert_new_fields H f y
  rw [hf.1] at hi
  have heq : hash_i H (f.insert_new H y) i x = hash_i H f i x := by
    unfold hash_i
    rw [hf.2.1, hf.2.2.1]
  rw [heq, hf.2.2.2.2]
  exact foldl_bitSet_mono _ _ _ _ (h i hi)

theorem insert_contains (H : List Nat → Nat → Nat) (f : static_filter)
    (x : List Nat) (hwf : f.WF) :
    ((f.insert H x).2).might_contain H x = true := by
  unfold might_contain
  rw [List.all_eq_true]
  intro i hi
  have hf := insert_fields H f x
  rw [hf.1] at hi
  have heq : hash_i H ((f.insert H x).2) i x = hash_i H f i x := by
    unfold hash_i
    rw [hf.2.1, hf.2.2.1]
  rw [heq, hf.2.2.2.2]
  refine foldl_bitSet_sets _ _ _ _ hi ?_
  rw [hwf.2]
  exact hash_i_lt H f i x (by simpa using hi) hwf.1

theorem insert_new_contains (H : List Nat → Nat → Nat) (f : static_filter)
    (x : List Nat) (hwf : f.WF) :
    (f.insert_new H x).might_contain H x = true := by
  unfold might_contain
  rw [List.all_eq_true]
  intro i hi
  have hf := insert_new_fields H f x
  rw [hf.1] at hi
  have heq : hash_i H (f.insert_new H x) i x = hash_i H f i x := by
    unfold hash_i
    rw [hf.2.1, hf.2.2.1]
  rw [heq, hf.2.2.2.2]
  refine foldl_bitSet_sets _ _ _ _ hi ?_
  rw [hwf.2]
  exact hash_i_lt H f i x (by simpa using hi) hwf.1

end static_filter

theorem applyStatic_contains (H : List Nat → Nat → Nat) (f : static_filter)
    (x : List Nat) (ops : List (List Nat)) (h : f.might_contain H x = true) :
    (applyStatic H f ops).might_contain H x = true := by
  induction ops generalizing f with
  | nil => exact h
  | cons y rest ih => exact ih _ (static_filter.might_contain_mono H f x y h)

/-! ## Scalable filter lemmas -/

namespace scalable_filter

theorem setLast_eq_dropLast (l : List static_filter) (g : static_filter) :
    setLast l g = l.dropLast ++ [g] := by
  rw [setLast, List.dropLast_eq_take]

theorem insert_preserves (H : List Nat → Nat → Nat)
    (mkSub : static_filter → static_filter) (F : scalable_filter) (x y : List Nat)
    (h : F.might_contain H x = true) :
    ((F.insert H mkSub y).2).might_contain H x = true := by
  unfold insert
  by_cases hc : F.might_contain H y = true
  · simp [hc, h]
  · simp only [hc, if_false, Bool.false_eq_true]
    cases hlast : F.filters.getLast? with
    | none => simpa [hc] using h
    | some back =>
      simp only
      set fs := if back.good then F.filters else F.filters ++ [mkSub back] with hfs
      cases hlast2 : fs.getLast? with
      | none => simpa [hc] using h
      | some back' =>
        simp only
        unfold might_contain at h ⊢
        rw [List.any_eq_true] at h ⊢
        obtain ⟨f, hf, hfx⟩ := h
        have hffs : f ∈ fs := by
          rw [hfs]
          split <;> simp [hf]
        have hne : fs ≠ [] := by
          intro he
          rw [he] at hlast2
          simp at hlast2
        have hdecomp : fs = fs.dropLast ++ [back'] := by
          conv_lhs => rw [← List.dropLast_append_getLast hne]
          rw [List.getLast?_eq_getLast fs hne, Option.some_inj] at hlast2
          rw [hlast2]
        rw [hdecomp] at hffs
        rcases List.mem_append.mp hffs with hin | hin
        · refine ⟨f, ?_, hfx⟩
          rw [setLast_eq_dropLast]
          exact List.mem_append_left _ hin
        · have hfb : f = back' := by simpa using hin
          subst hfb
          refine ⟨f.insert_new H y, ?_, static_filter.might_contain_mono_new H f x y hfx⟩
          rw [setLast_eq_dropLast]
          simp

theorem insert_establishes (H : List Nat → Nat → Nat)
    (mkSub : static_filter → static_filter) (F : scalable_filter) (x : List Nat)
    (hne : 0 < F.filters.length)
    (hwf : ∀ g ∈ F.filters, g.WF) (hmk : ∀ g, (mkSub g).WF) :
    ((F.insert H mkSub x).2).might_contain H x = true := by
  unfold insert
  by_cases hc : F.might_contain H x = true
  · simp [hc]
  · simp only [hc, if_false, Bool.false_eq_true]
    cases hlast : F.filters.getLast? with
    | none =>
      have : F.filters = [] := by
        cases hl : F.filters with
        | nil => rfl
        | cons a as =>
          rw [hl] at hlast
          simp [List.getLast?_concat, List.getLast?] at hlast
      rw [this] at hne
      simp at hne
    | some back =>
      simp only
      set fs := if back.good then F.filters else F.filters ++ [mkSub back] with hfs
      have hFne : F.filters ≠ [] := by
        intro h
        rw [h] at hne
        simp at hne
      have hfs_ne : fs ≠ [] := by
        rw [hfs]
        split
        · exact hFne
        · simp
      cases hlast2 : fs.getLast? with
      | none =>
        rw [List.getLast?_eq_getLast fs hfs_ne] at hlast2
        simp at hlast2
      | some back' =>
        simp only
        have hmem : back' ∈ fs := by
          rw [List.getLast?_eq_getLast fs hfs_ne, Option.some_inj] at hlast2
          rw [← hlast2]
          exact List.getLast_mem hfs_ne
        have hwb : back'.WF := by
          rw [hfs] at hmem
          by_cases hg : back.good = true
          · rw [if_pos hg] at hmem
            exact hwf _ hmem
          · rw [if_neg hg] at hmem
            rcases List.mem_append.mp hmem with hin | hin
            · exact hwf _ hin
            · have hb : back' = mkSub back := by simpa using hin
              rw [hb]
              exact hmk back
        unfold might_contain
        rw [List.any_eq_true]
        refine ⟨back'.insert_new H x, ?_, static_filter.insert_new_contains H back' x hwb⟩
        rw [setLast_eq_dropLast]
        simp

end scalable_filter

theorem applyScalable_contains (H : List Nat → Nat → Nat)
    (mkSub : static_filter → static_filter) (F : scalable_filter)
    (x : List Nat) (ops : List (List Nat)) (h : F.might_contain H x = true) :
    (applyScalable H mkSub F ops).might_contain H x = true := by
  induction ops generalizing F with
  | nil => exact h
  | cons y rest ih => exact ih _ (scalable_filter.insert_preserves H mkSub F x y h)

/-! ## Claim C7: inserted elements always test positive -/

/-- C7: for both the static and the scalable Bloom filter, after
`insert(x)` (or `insert_new(x)` for the static filter) every subsequent
`might_contain(x)` returns true, no matter how many further elements are
inserted or how many sub-filters the scalable filter grows.  `H` is the
(arbitrary) 64-bit hash, `mkSub` the scalable filter's creation of a
scaled sub-filter; well-formedness asks only that slice widths are
positive and the bit memory has the constructor's byte count. -/
theorem bloom_inserted_always_positive
    (H : List Nat → Nat → Nat) (mkSub : static_filter → static_filter)
    (x : List Nat) (ops : List (List Nat)) :
    (∀ f : static_filter, f.WF →
      (applyStatic H ((f.insert H x).2) ops).might_contain H x = true) ∧
    (∀ f : static_filter, f.WF →
      (applyStatic H (f.insert_new H x) ops).might_contain H x = true) ∧
    (∀ F : scalable_filter, 0 < F.filters.length →
      (∀ g ∈ F.filters, g.WF) → (∀ g, (mkSub g).WF) →
      (applyScalable H mkSub ((F.insert H mkSub x).2) ops).might_contain H x = true) := by
  refine ⟨fun f hwf => ?_, fun f hwf => ?_, fun F hne hwf hmk => ?_⟩
  · exact applyStatic_contains H _ x ops (static_filter.insert_contains H f x hwf)
  · exact applyStatic_contains H _ x ops (static_filter.insert_new_contains H f x hwf)
  · exact applyScalable_contains H mkSub _ x ops
      (scalable_filter.insert_establishes H mkSub F x hne hwf hmk)

/-- C7 witness: the theorem applied to concrete filters, hash, element
`[5]` and one further insertion `[9]`. -/
theorem bloom_inserted_always_positive_witness :
    (applyStatic bloomHashHead ((bloomStatic0.insert bloomHashHead [5]).2) [[9]]).might_contain
        bloomHashHead [5] = true ∧
    (applyStatic bloomHashHead (bloomStatic0.insert_new bloomHashHead [5]) [[9]]).might_contain
        bloomHashHead [5] = true ∧
    (applyScalable bloomHashHead (fun _ => static_filter.init 10 (fun _ => 0) 1 8)
        ((bloomScalable0.insert bloomHashHead (fun _ => static_filter.init 10 (fun _ => 0) 1 8) [5]).2)
        [[9]]).might_contain bloomHashHead [5] = true :=
  ⟨(bloom_inserted_always_positive bloomHashHead (fun _ => static_filter.init 10 (fun _ => 0) 1 8)
      [5] [[9]]).1 bloomStatic0 (by constructor <;> decide),
   (bloom_inserted_always_positive bloomHashHead (fun _ => static_filter.init 10 (fun _ => 0) 1 8)
      [5] [[9]]).2.1 bloomStatic0 (by constructor <;> decide),
   (bloom_inserted_always_positive bloomHashHead (fun _ => static_filter.init 10 (fun _ => 0) 1 8)
      [5] [[9]]).2.2 bloomScalable0 (by decide)
      (by intro g hg; simp only [bloomScalable0] at hg
          rw [List.mem_singleton] at hg
          subst hg
          constructor <;> decide)
      (fun g => by constructor <;> decide)⟩

/-! ## Skip-list chain lemmas

All reasoning is relative to the structural invariant `skiptable.Inv`.
`chainSeg t lvl l cur endc` says `l` is exactly the run of nodes from
link `cur` to link `endc` at level `lvl`. -/

namespace skiptable

theorem chainSeg_nil {t : skiptable} {lvl : Nat} {cur endc : Option Nat} :
    chainSeg t lvl [] cur endc = true ↔ cur = endc := by
  simp [chainSeg]

theorem chainSeg_cons {t : skiptable} {lvl : Nat} {j : Nat} {l : List Nat}
    {cur endc : Option Nat} :
    chainSeg t lvl (j :: l) cur endc = true ↔
      cur = some j ∧ chainSeg t lvl l (t.nodeNext j lvl) endc = true := by
  simp [chainSeg]

theorem chainSeg_append {t : skiptable} {lvl : Nat} {xs ys : List Nat}
    {cur endc : Option Nat} :
    chainSeg t lvl (xs ++ ys) cur endc = true ↔
      ∃ mid, chainSeg t lvl xs cur mid = true ∧ chainSeg t lvl ys mid endc = true := by
  induction xs generalizing cur with
  | nil =>
    simp only [List.nil_append]
    constructor
    · intro h; exact ⟨cur, chainSeg_nil.mpr rfl, h⟩
    · rintro ⟨mid, h1, h2⟩
      rw [chainSeg_nil.mp h1]
      exact h2
  | cons j xs ih =>
    constructor
    · intro h
      obtain ⟨hc, hrest⟩ := chainSeg_cons.mp (by simpa using h)
      obtain ⟨mid, hm1, hm2⟩ := ih.mp hrest
      exact ⟨mid, chainSeg_cons.mpr ⟨hc, hm1⟩, hm2⟩
    · rintro ⟨mid, hm1, hm2⟩
      obtain ⟨hc, hrest⟩ := chainSeg_cons.mp hm1
      simpa using chainSeg_cons.mpr ⟨hc, ih.mpr ⟨mid, hrest, hm2⟩⟩

/-- A complete segment determines the fueled `chainFrom` computation. -/
theorem chainFrom_of_seg {t : skiptable} {lvl : Nat} {l : List Nat} {cur : Option Nat}
    (h : chainSeg t lvl l cur none = true) :
    ∀ fuel, l.length ≤ fuel → chainFrom t lvl fuel cur = l := by
  induction l generalizing cur with
  | nil =>
    intro fuel _
    rw [chainSeg_nil.mp h]
    cases fuel <;> rfl
  | cons j l ih =>
    intro fuel hf
    obtain ⟨hc, hrest⟩ := chainSeg_cons.mp h
    cases fuel with
    | zero => simp at hf
    | succ fuel' =>
      rw [hc]
      simp only [chainFrom]
      rw [ih hrest fuel' (by simpa using hf)]

/-- Conversely, a segment for a complete chain is unique. -/
theorem seg_unique {t : skiptable} {lvl : Nat} {l l' : List Nat} {cur : Option Nat}
    (h : chainSeg t lvl l cur none = true) (h' : chainSeg t lvl l' cur none = true) :
    l = l' := by
  induction l generalizing l' cur with
  | nil =>
    rw [chainSeg_nil.mp h] at h'
    cases l' with
    | nil => rfl
    | cons j l' => simp [chainSeg_cons] at h'
  | cons j l ih =>
    obtain ⟨hc, hrest⟩ := chainSeg_cons.mp h
    cases l' with
    | nil =>
      rw [chainSeg_nil.mp h'] at hc
      simp at hc
    | cons j' l' =>
      obtain ⟨hc', hrest'⟩ := chainSeg_cons.mp h'
      rw [hc] at hc'
      obtain rfl : j = j' := by simpa using hc'
      rw [ih hrest hrest']

/-- Splitting a complete segment at a member. -/
theorem seg_split_at_mem {t : skiptable} {lvl : Nat} {l : List Nat} {cur : Option Nat}
    (h : chainSeg t lvl l cur none = true) {j : Nat} (hj : j ∈ l) :
    ∃ l1 l2, l = l1 ++ j :: l2 ∧
      chainSeg t lvl l2 (t.nodeNext j lvl) none = true := by
  obtain ⟨l1, l2, rfl⟩ := List.append_of_mem hj
  obtain ⟨mid, _, h2⟩ := chainSeg_append.mp h
  obtain ⟨_, hrest⟩ := chainSeg_cons.mp h2
  exact ⟨l1, l2, rfl, hrest⟩

end skiptable

namespace skiptable

theorem gtb_eq (t : skiptable) (key : List Nat) (id : Nat) :
    t.gtb key id = decide (lexLt (t.keyOf id) key) := by
  by_cases h : lexLt (t.keyOf id) key
  · unfold gtb
    rw [lexLt_iff_gt.mpr h, decide_eq_true h]
    rfl
  · unfold gtb
    rw [decide_eq_false h]
    rcases hc : strCompare key (t.keyOf id) with _ | _ | _
    · rfl
    · rfl
    · exact absurd (lexLt_iff_gt.mp hc) h

/-- Characterisation of the inner advance loop over the segment `l`
hanging off position `n`: it skips the longest run of keys below the
target and stops (or hits) at the first key not below it. -/
theorem advance_spec {t : skiptable} {key : List Nat} {lvl : Nat} :
    ∀ (l : List Nat) (n fuel : Nat),
    chainSeg t lvl l (t.nodeNext n lvl) none = true → l.length < fuel →
    (advance t key lvl fuel n =
      (match l.dropWhile (t.gtb key) with
      | [] => AdvRes.stop ((l.takeWhile (t.gtb key)).getLastD n) none
      | m :: _ =>
        if strCompare key (t.keyOf m) = Ordering.eq then AdvRes.hit m
        else AdvRes.stop ((l.takeWhile (t.gtb key)).getLastD n) (some m))) ∧
    t.nodeNext ((l.takeWhile (t.gtb key)).getLastD n) lvl
      = (l.dropWhile (t.gtb key)).head? := by
  intro l
  induction l with
  | nil =>
    intro n fuel hseg hf
    have hnext : t.nodeNext n lvl = none := chainSeg_nil.mp hseg
    cases fuel with
    | zero => simp at hf
    | succ fuel' =>
      refine ⟨?_, by simpa using hnext⟩
      simp [advance, hnext]
  | cons j l ih =>
    intro n fuel hseg hf
    obtain ⟨hc, hrest⟩ := chainSeg_cons.mp hseg
    cases fuel with
    | zero => simp at hf
    | succ fuel' =>
      rcases hcmp : strCompare key (t.keyOf j) with _ | _ | _
      · have hg : t.gtb key j = false := by simp only [gtb, hcmp]; rfl
        refine ⟨?_, ?_⟩
        · simp [advance, hc, hcmp, hg, List.dropWhile_cons, List.takeWhile_cons]
        · simp [hg, List.dropWhile_cons, List.takeWhile_cons, hc]
      · have hg : t.gtb key j = false := by simp only [gtb, hcmp]; rfl
        refine ⟨?_, ?_⟩
        · simp [advance, hc, hcmp, hg, List.dropWhile_cons, List.takeWhile_cons]
        · simp [hg, List.dropWhile_cons, List.takeWhile_cons, hc]
      · have hg : t.gtb key j = true := by simp only [gtb, hcmp]; rfl
        have hlen : l.length < fuel' := by simpa using hf
        obtain ⟨ih1, ih2⟩ := ih j fuel' hrest hlen
        refine ⟨?_, ?_⟩
        · simp only [advance, hc, hcmp, List.dropWhile_cons, hg, if_true,
            List.takeWhile_cons, List.getLastD_cons]
          exact ih1
        · simp only [List.dropWhile_cons, hg, if_true, List.takeWhile_cons,
            List.getLastD_cons]
          exact ih2

end skiptable

namespace skiptable

theorem eq_of_pairwise_keys {t : skiptable} :
    ∀ {l : List Nat}, List.Pairwise lexLt (keysOf t l) →
    ∀ {a b : Nat}, a ∈ l → b ∈ l → t.keyOf a = t.keyOf b → a = b := by
  intro l
  induction l with
  | nil => intro _ a b ha; simp at ha
  | cons x xs ih =>
    intro hp a b ha hb hk
    rw [keysOf, List.map_cons, List.pairwise_cons] at hp
    rcases List.mem_cons.mp ha with rfl | ha' <;> rcases List.mem_cons.mp hb with rfl | hb'
    · rfl
    · exact absurd (hk ▸ hp.1 _ (List.mem_map_of_mem t.keyOf hb')) (lexLt_irrefl _)
    · exact absurd (hk ▸ hp.1 _ (List.mem_map_of_mem t.keyOf ha')) (by
        intro hh; exact lexLt_irrefl _ (hk ▸ hh))
    · exact ih hp.2 ha' hb' hk

theorem nodup_of_pairwise_keys {t : skiptable} {l : List Nat}
    (hp : List.Pairwise lexLt (keysOf t l)) : l.Nodup := by
  rw [keysOf, List.pairwise_map] at hp
  exact hp.imp fun h => fun heq => absurd (heq ▸ h) (lexLt_irrefl _)

theorem Inv.chain_sub_zero {t : skiptable} (hInv : Inv t) :
    ∀ lvl, (t.chain lvl).Sublist (t.chain 0) := by
  intro lvl
  induction lvl with
  | zero => exact List.Sublist.refl _
  | succ lvl ih => exact (hInv.nested lvl).trans ih

theorem Inv.chain_sorted_lvl {t : skiptable} (hInv : Inv t) (lvl : Nat) :
    List.Pairwise lexLt (keysOf t (t.chain lvl)) :=
  hInv.sorted.sublist ((hInv.chain_sub_zero lvl).map t.keyOf)

theorem Inv.chain_nodup {t : skiptable} (hInv : Inv t) (lvl : Nat) :
    (t.chain lvl).Nodup :=
  nodup_of_pairwise_keys (hInv.chain_sorted_lvl lvl)

theorem Inv.chain_lt_len {t : skiptable} (hInv : Inv t) (lvl : Nat) :
    (t.chain lvl).length < t.nodes.length := by
  have hsub : t.chain 0 ⊆ List.range' 1 (t.nodes.length - 1) := by
    intro id hid
    have hv := hInv.valid id hid
    have hl := hInv.hlen
    rw [List.mem_range'_1]
    omega
  have hnd := hInv.chain_nodup 0
  have hle := (hnd.subperm hsub).length_le
  rw [List.length_range'] at hle
  have := ((hInv.chain_sub_zero lvl).length_le)
  have := hInv.hlen
  omega



theorem takeWhile_eq_filter_gtb {t : skiptable} {key : List Nat} :
    ∀ {l : List Nat}, List.Pairwise lexLt (keysOf t l) →
    l.takeWhile (t.gtb key) = l.filter fun id => decide (lexLt (t.keyOf id) key) := by
  intro l
  induction l with
  | nil => intro _; rfl
  | cons x xs ih =>
    intro hp
    rw [keysOf, List.map_cons, List.pairwise_cons] at hp
    rcases hgx : t.gtb key x with _ | _
    · have hfx : decide (lexLt (t.keyOf x) key) = false := by rw [← gtb_eq]; exact hgx
      rw [List.takeWhile_cons, List.filter_cons, hgx, hfx]
      simp only [Bool.false_eq_true, if_false]
      symm
      rw [List.filter_eq_nil_iff]
      intro y hy
      simp only [decide_eq_true_eq]
      intro hlt
      have hxy := hp.1 _ (List.mem_map_of_mem t.keyOf hy)
      have hcon : lexLt (t.keyOf x) key := lexLt_trans hxy hlt
      rw [decide_eq_true hcon] at hfx
      cases hfx
    · have hfx : decide (lexLt (t.keyOf x) key) = true := by rw [← gtb_eq]; exact hgx
      rw [List.takeWhile_cons, List.filter_cons, hgx, hfx]
      simp only [if_true]
      rw [ih hp.2]

theorem dropWhile_eq_filter_lt {t : skiptable} {key : List Nat} :
    ∀ {l : List Nat}, List.Pairwise lexLt (keysOf t l) → key ∉ keysOf t l →
    l.dropWhile (t.gtb key) = l.filter fun id => decide (lexLt key (t.keyOf id)) := by
  intro l
  induction l with
  | nil => intro _ _; rfl
  | cons x xs ih =>
    intro hp hk
    rw [keysOf, List.map_cons, List.pairwise_cons] at hp
    rw [keysOf, List.map_cons, List.mem_cons] at hk
    push_neg at hk
    rcases hgx : t.gtb key x with _ | _
    · have hxk : ¬ lexLt (t.keyOf x) key := by
        rw [gtb_eq] at hgx
        simpa using hgx
      have hkx : lexLt key (t.keyOf x) := by
        rcases strCompare_cases key (t.keyOf x) with h | h | h
        · exact h
        · exact absurd h hk.1
        · exact absurd h hxk
      rw [List.dropWhile_cons, List.filter_cons, hgx]
      simp only [Bool.false_eq_true, if_false, decide_eq_true hkx, if_true]
      congr 1
      symm
      rw [List.filter_eq_self]
      intro y hy
      have hxy := hp.1 _ (List.mem_map_of_mem t.keyOf hy)
      exact decide_eq_true (lexLt_trans hkx hxy)
    · have hxk : lexLt (t.keyOf x) key := by
        rw [gtb_eq] at hgx
        simpa using hgx
      rw [List.dropWhile_cons, List.filter_cons, hgx]
      simp only [if_true]
      have : ¬ lexLt key (t.keyOf x) := lexLt_asymm hxk
      simp only [decide_eq_false this, Bool.false_eq_true, if_false]
      exact ih hp.2 fun hh => hk.2 hh

theorem dropWhile_head_false {p : Nat → Bool} :
    ∀ {l : List Nat} {m : Nat} {rest : List Nat},
    l.dropWhile p = m :: rest → p m = false := by
  intro l
  induction l with
  | nil => intro m rest h; simp [List.dropWhile] at h
  | cons x xs ih =>
    intro m rest h
    rw [List.dropWhile_cons] at h
    by_cases hx : p x = true
    · rw [if_pos hx] at h
      exact ih h
    · rw [if_neg hx] at h
      injection h with h1 _
      subst h1
      simpa using hx

end skiptable

namespace skiptable

/-- In a sorted id list containing the search key, the first element not
strictly below the key carries exactly the key. -/
theorem hit_of_mem {t : skiptable} {key : List Nat} {l : List Nat}
    (hp : List.Pairwise lexLt (keysOf t l)) (hk : key ∈ keysOf t l) :
    ∃ m rest, l.dropWhile (t.gtb key) = m :: rest ∧
      strCompare key (t.keyOf m) = Ordering.eq := by
  have hsplit := List.takeWhile_append_dropWhile (p := t.gtb key) (l := l)
  have hk2 : key ∈ keysOf t (l.dropWhile (t.gtb key)) := by
    rw [keysOf] at hk ⊢
    rw [← hsplit, List.map_append, List.mem_append] at hk
    rcases hk with hk | hk
    · exfalso
      obtain ⟨y, hy, hyk⟩ := List.mem_map.mp hk
      have := List.mem_takeWhile_imp hy
      rw [gtb_eq] at this
      rw [decide_eq_true_eq] at this
      exact lexLt_irrefl key (hyk ▸ this)
    · exact hk
  cases hdw : l.dropWhile (t.gtb key) with
  | nil =>
    rw [hdw] at hk2
    simp [keysOf] at hk2
  | cons m rest =>
    refine ⟨m, rest, rfl, ?_⟩
    have hm : t.gtb key m = false := dropWhile_head_false hdw
    have hnlt : ¬ lexLt (t.keyOf m) key := by
      rw [gtb_eq] at hm
      simpa using hm
    rcases hc : strCompare key (t.keyOf m) with _ | _ | _
    · exfalso
      -- key < keyOf m, yet key occurs in the sorted dropWhile part
      have hpd : List.Pairwise lexLt (keysOf t (m :: rest)) := by
        rw [← hdw]
        exact hp.sublist ((List.dropWhile_sublist _).map t.keyOf)
      rw [hdw] at hk2
      rw [keysOf, List.map_cons, List.mem_cons] at hk2
      rw [keysOf, List.map_cons, List.pairwise_cons] at hpd
      rcases hk2 with hk2 | hk2
      · rw [← hk2] at hc
        exact lexLt_irrefl key hc
      · exact lexLt_irrefl key (lexLt_trans hc (hpd.1 _ hk2))
    · rfl
    · exfalso
      unfold gtb at hm
      rw [hc] at hm
      exact absurd hm (by decide)

end skiptable

namespace skiptable

theorem getLastD_append (xs ys : List Nat) (d : Nat) :
    (xs ++ ys).getLastD d = ys.getLastD (xs.getLastD d) := by
  induction xs generalizing d with
  | nil => rfl
  | cons x xs ih => rw [List.cons_append, List.getLastD_cons, ih, List.getLastD_cons]

theorem getLastD_mem_cons (y : Nat) (ys : List Nat) (d : Nat) :
    (y :: ys).getLastD d ∈ y :: ys := by
  induction ys generalizing y with
  | nil => simp [List.getLastD_cons]
  | cons z zs ih =>
    rw [List.getLastD_cons]
    exact List.mem_cons_of_mem y (ih z)

/-- Full characterisation of one level of the top-down search under the
table invariant: from a valid position, the advance loop either hits the
node carrying the search key, or stops at the last node below the key
with its successor the first node above it (and, in that case, the key
is absent from the level). -/
theorem advance_level_spec {t : skiptable} {key : List Nat} {lvl n : Nat}
    (hInv : Inv t) (hpos : PosOk t key lvl n) :
    (∀ m, advance t key lvl t.nodes.length n = AdvRes.hit m →
        m ∈ t.chain lvl ∧ t.keyOf m = key) ∧
    (key ∈ keysOf t (t.chain lvl) →
        ∃ m, advance t key lvl t.nodes.length n = AdvRes.hit m) ∧
    (∀ n' succ, advance t key lvl t.nodes.length n = AdvRes.stop n' succ →
        PosOk t key lvl n' ∧
        key ∉ keysOf t (t.chain lvl) ∧
        n' = (Cpart t key lvl).getLastD 0 ∧
        succ = (Dpart t key lvl).head? ∧
        t.nodeNext n' lvl = succ ∧
        t.chain lvl = Cpart t key lvl ++ Dpart t key lvl) := by
  obtain ⟨P, l, hchain, hPlt, hseg, hPlast⟩ :
      ∃ P l, t.chain lvl = P ++ l ∧ (∀ a ∈ P, lexLt (t.keyOf a) key) ∧
        chainSeg t lvl l (t.nodeNext n lvl) none = true ∧ P.getLastD 0 = n := by
    rcases hpos with rfl | ⟨hn, hnk⟩
    · exact ⟨[], t.chain lvl, rfl, by simp, hInv.chains lvl, rfl⟩
    · obtain ⟨l1, l2, hsp, hseg2⟩ := seg_split_at_mem (hInv.chains lvl) hn
      refine ⟨l1 ++ [n], l2, by rw [hsp]; simp, ?_, hseg2, ?_⟩
      · intro a ha
        rcases List.mem_append.mp ha with ha | ha
        · have hs := hInv.chain_sorted_lvl lvl
          rw [hsp, keysOf, List.map_append, List.pairwise_append] at hs
          have := hs.2.2 (t.keyOf a) (List.mem_map_of_mem t.keyOf ha) (t.keyOf n) (by simp)
          exact lexLt_trans this hnk
        · have haa : a = n := by simpa using ha
          rw [haa]; exact hnk
      · rw [getLastD_append]; rfl
  have hsubl : l.Sublist (t.chain lvl) := hchain ▸ List.sublist_append_right P l
  have hsortl : List.Pairwise lexLt (keysOf t l) :=
    (hInv.chain_sorted_lvl lvl).sublist (hsubl.map t.keyOf)
  have hlen : l.length < t.nodes.length :=
    lt_of_le_of_lt hsubl.length_le (hInv.chain_lt_len lvl)
  obtain ⟨hadv, hnext⟩ := advance_spec l n t.nodes.length hseg hlen
  have htw : l.takeWhile (t.gtb key) = l.filter (fun id => decide (lexLt (t.keyOf id) key)) :=
    takeWhile_eq_filter_gtb hsortl
  have hC : Cpart t key lvl = P ++ l.takeWhile (t.gtb key) := by
    unfold Cpart
    rw [hchain, List.filter_append, htw]
    congr 1
    rw [List.filter_eq_self]
    intro a ha
    exact decide_eq_true (hPlt a ha)
  have hCn : (Cpart t key lvl).getLastD 0 = (l.takeWhile (t.gtb key)).getLastD n := by
    rw [hC, getLastD_append, hPlast]
  have hknotP : ∀ hk : key ∈ keysOf t (t.chain lvl), key ∈ keysOf t l := by
    intro hk
    rw [hchain, keysOf, List.map_append, List.mem_append] at hk
    rcases hk with hk | hk
    · exfalso
      obtain ⟨a, ha, hak⟩ := List.mem_map.mp hk
      exact lexLt_irrefl key (hak ▸ hPlt a ha)
    · exact hk
  have hcomp : key ∈ keysOf t (t.chain lvl) →
      ∃ m, advance t key lvl t.nodes.length n = AdvRes.hit m := by
    intro hk
    obtain ⟨m, rest, hdw, hcm⟩ := hit_of_mem hsortl (hknotP hk)
    rw [hdw] at hadv
    simp only [hcm, if_true] at hadv
    exact ⟨m, hadv⟩
  have hposres : PosOk t key lvl ((l.takeWhile (t.gtb key)).getLastD n) := by
    cases htw2 : l.takeWhile (t.gtb key) with
    | nil => simpa using hpos
    | cons y ys =>
      right
      have hmemtw : (y :: ys).getLastD n ∈ y :: ys := getLastD_mem_cons y ys n
      have hmeml : (y :: ys).getLastD n ∈ l := by
        have := List.takeWhile_sublist (p := t.gtb key) (l := l)
        rw [htw2] at this
        exact this.mem hmemtw
      constructor
      · rw [hchain]
        exact List.mem_append_right P hmeml
      · have := List.mem_takeWhile_imp (l := l) (p := t.gtb key) (by rw [htw2]; exact hmemtw)
        rw [gtb_eq, decide_eq_true_eq] at this
        exact this
  refine ⟨?_, hcomp, ?_⟩
  · intro m hm
    cases hdw : l.dropWhile (t.gtb key) with
    | nil =>
      rw [hdw] at hadv
      rw [hadv] at hm
      exact absurd hm (by simp)
    | cons m' rest =>
      rw [hdw] at hadv
      by_cases hcm : strCompare key (t.keyOf m') = Ordering.eq
      · simp only [hcm, if_true] at hadv
        rw [hadv] at hm
        have hmm : m' = m := by simpa [AdvRes.hit.injEq] using hm
        subst hmm
        have hmeml : m' ∈ l := by
          have := List.dropWhile_sublist (p := t.gtb key) (l := l)
          rw [hdw] at this
          exact this.mem (List.mem_cons_self m' rest)
        exact ⟨hchain ▸ List.mem_append_right P hmeml,
          (strCompare_eq_iff.mp hcm).symm⟩
      · simp only [hcm, if_false] at hadv
        rw [hadv] at hm
        exact absurd hm (by simp)
  · intro n' succ hstop
    have hknot : key ∉ keysOf t (t.chain lvl) := by
      intro hk
      obtain ⟨m, hm⟩ := hcomp hk
      rw [hm] at hstop
      exact absurd hstop (by simp)
    have hknotl : key ∉ keysOf t l := by
      intro hk
      apply hknot
      rw [hchain, keysOf, List.map_append, List.mem_append]
      exact Or.inr hk
    have hD : Dpart t key lvl = l.dropWhile (t.gtb key) := by
      unfold Dpart
      rw [hchain, List.filter_append, ← dropWhile_eq_filter_lt hsortl hknotl]
      have hPnil : (P.filter fun id => decide (lexLt key (t.keyOf id))) = [] := by
        rw [List.filter_eq_nil_iff]
        intro a ha
        simp only [decide_eq_true_eq]
        exact lexLt_asymm (hPlt a ha)
      rw [hPnil, List.nil_append]
    have hsplit2 : t.chain lvl = Cpart t key lvl ++ Dpart t key lvl := by
      rw [hC, hD, List.append_assoc, List.takeWhile_append_dropWhile, hchain]
    cases hdw : l.dropWhile (t.gtb key) with
    | nil =>
      rw [hdw] at hadv hnext
      rw [hadv] at hstop
      obtain ⟨h1, h2⟩ : (l.takeWhile (t.gtb key)).getLastD n = n' ∧ (none : Option Nat) = succ := by
        constructor <;> [exact (AdvRes.stop.injEq .. |>.mp hstop).1;
          exact (AdvRes.stop.injEq .. |>.mp hstop).2]
      refine ⟨h1 ▸ hposres, hknot, ?_, ?_, ?_, hsplit2⟩
      · rw [hCn, h1]
      · rw [hD, hdw, ← h2]
        rfl
      · rw [← h1, ← h2]
        exact hnext
    | cons m rest =>
      rw [hdw] at hadv hnext
      by_cases hcm : strCompare key (t.keyOf m) = Ordering.eq
      · simp only [hcm, if_true] at hadv
        rw [hadv] at hstop
        exact absurd hstop (by simp)
      · simp only [hcm, if_false] at hadv
        rw [hadv] at hstop
        obtain ⟨h1, h2⟩ : (l.takeWhile (t.gtb key)).getLastD n = n' ∧ some m = succ := by
          constructor <;> [exact (AdvRes.stop.injEq .. |>.mp hstop).1;
            exact (AdvRes.stop.injEq .. |>.mp hstop).2]
        refine ⟨h1 ▸ hposres, hknot, ?_, ?_, ?_, hsplit2⟩
        · rw [hCn, h1]
        · rw [hD, hdw, ← h2]
          rfl
        · rw [← h1, ← h2]
          exact hnext

end skiptable

namespace skiptable

theorem PosOk.descend {t : skiptable} {key : List Nat} {lvl n : Nat}
    (hInv : Inv t) (h : PosOk t key (lvl + 1) n) : PosOk t key lvl n := by
  rcases h with rfl | ⟨hm, hk⟩
  · exact Or.inl rfl
  · exact Or.inr ⟨(hInv.nested lvl).subset hm, hk⟩

/-- Soundness and completeness of the `find` descent: processing levels
`i, i-1, …, 0` from a valid position at level `i`. -/
theorem findAux_spec {t : skiptable} {key : List Nat} (hInv : Inv t) :
    ∀ (i n : Nat), PosOk t key i n →
    (∀ m, findAux t key (i + 1) n = some m → m ∈ t.chain 0 ∧ t.keyOf m = key) ∧
    (key ∈ keysOf t (t.chain 0) → ∃ m, findAux t key (i + 1) n = some m) := by
  intro i
  induction i with
  | zero =>
    intro n hpos
    obtain ⟨hhit, hcomp, _⟩ := advance_level_spec hInv hpos
    constructor
    · intro m hm
      unfold findAux at hm
      cases hadv : advance t key 0 t.nodes.length n with
      | hit m' =>
        rw [hadv] at hm
        simp only [Option.some_inj] at hm
        exact hm ▸ hhit m' hadv
      | stop n' succ =>
        rw [hadv] at hm
        simp [findAux] at hm
    · intro hk
      obtain ⟨m, hm⟩ := hcomp hk
      exact ⟨m, by unfold findAux; rw [hm]⟩
  | succ i ih =>
    intro n hpos
    obtain ⟨hhit, _, hstop⟩ := advance_level_spec hInv hpos
    constructor
    · intro m hm
      unfold findAux at hm
      cases hadv : advance t key (i + 1) t.nodes.length n with
      | hit m' =>
        rw [hadv] at hm
        simp only [Option.some_inj] at hm
        obtain ⟨hmem, hkey⟩ := hhit m' hadv
        exact ⟨hm ▸ ((hInv.chain_sub_zero (i + 1)).subset hmem), hm ▸ hkey⟩
      | stop n' succ =>
        rw [hadv] at hm
        obtain ⟨hpos', _⟩ := hstop n' succ hadv
        exact (ih n' (hpos'.descend hInv)).1 m hm
    · intro hk
      cases hadv : advance t key (i + 1) t.nodes.length n with
      | hit m' =>
        refine ⟨m', ?_⟩
        unfold findAux
        rw [hadv]
      | stop n' succ =>
        obtain ⟨hpos', _⟩ := hstop n' succ hadv
        obtain ⟨m, hm⟩ := (ih n' (hpos'.descend hInv)).2 hk
        refine ⟨m, ?_⟩
        unfold findAux
        rw [hadv]
        exact hm

theorem find_sound {t : skiptable} {key : List Nat} (hInv : Inv t) {m : Nat}
    (h : t.find key = some m) : m ∈ t.chain 0 ∧ t.keyOf m = key :=
  (findAux_spec hInv 15 0 (Or.inl rfl)).1 m h

theorem find_complete {t : skiptable} {key : List Nat} (hInv : Inv t)
    (hk : key ∈ keysOf t (t.chain 0)) : ∃ m, t.find key = some m :=
  (findAux_spec hInv 15 0 (Or.inl rfl)).2 hk

/-- Soundness and completeness of the `insert` search descent, with the
collected splice positions. -/
theorem searchAux_spec {t : skiptable} {key : List Nat} (hInv : Inv t) :
    ∀ (i n : Nat) (upd : Nat → Nat × Option Nat), PosOk t key i n →
    (∀ m, searchAux t key i n upd = SearchOut.found m →
        m ∈ t.chain 0 ∧ t.keyOf m = key) ∧
    (key ∈ keysOf t (t.chain 0) →
        ∃ m, searchAux t key i n upd = SearchOut.found m) ∧
    (∀ upd', searchAux t key i n upd = SearchOut.splice upd' →
        key ∉ keysOf t (t.chain 0) ∧
        (∀ j, j ≤ i →
          (upd' j).1 = (Cpart t key j).getLastD 0 ∧
          (upd' j).2 = (Dpart t key j).head? ∧
          t.nodeNext (upd' j).1 j = (upd' j).2 ∧
          t.chain j = Cpart t key j ++ Dpart t key j) ∧
        (∀ j, j > i → upd' j = upd j)) := by
  intro i
  induction i with
  | zero =>
    intro n upd hpos
    obtain ⟨hhit, hcomp, hstop⟩ := advance_level_spec hInv hpos
    refine ⟨?_, ?_, ?_⟩
    · intro m hm
      unfold searchAux at hm
      cases hadv : advance t key 0 t.nodes.length n with
      | hit m' =>
        rw [hadv] at hm
        simp only [SearchOut.found.injEq] at hm
        exact hm ▸ hhit m' hadv
      | stop n' succ =>
        rw [hadv] at hm
        simp at hm
    · intro hk
      obtain ⟨m, hm⟩ := hcomp hk
      exact ⟨m, by unfold searchAux; rw [hm]⟩
    · intro upd' hm
      unfold searchAux at hm
      cases hadv : advance t key 0 t.nodes.length n with
      | hit m' =>
        rw [hadv] at hm
        simp at hm
      | stop n' succ =>
        rw [hadv] at hm
        simp only [SearchOut.splice.injEq] at hm
        obtain ⟨_, hknot0, hn', hsucc, hnext, hsplit⟩ := hstop n' succ hadv
        refine ⟨hknot0, ?_, ?_⟩
        · intro j hj
          have hj0 : j = 0 := Nat.le_zero.mp hj
          subst hj0
          rw [← hm]
          simp only [if_pos rfl]
          exact ⟨hn', hsucc, hnext, hsplit⟩
        · intro j hj
          rw [← hm]
          simp [Nat.pos_iff_ne_zero.mp hj]
  | succ i ih =>
    intro n upd hpos
    obtain ⟨hhit, _, hstop⟩ := advance_level_spec hInv hpos
    refine ⟨?_, ?_, ?_⟩
    · intro m hm
      unfold searchAux at hm
      cases hadv : advance t key (i + 1) t.nodes.length n with
      | hit m' =>
        rw [hadv] at hm
        simp only [SearchOut.found.injEq] at hm
        obtain ⟨hmem, hkey⟩ := hhit m' hadv
        exact ⟨hm ▸ ((hInv.chain_sub_zero (i + 1)).subset hmem), hm ▸ hkey⟩
      | stop n' succ =>
        rw [hadv] at hm
        obtain ⟨hpos', _⟩ := hstop n' succ hadv
        exact (ih n' _ (hpos'.descend hInv)).1 m hm
    · intro hk
      cases hadv : advance t key (i + 1) t.nodes.length n with
      | hit m' =>
        refine ⟨m', ?_⟩
        unfold searchAux
        rw [hadv]
      | stop n' succ =>
        obtain ⟨hpos', _⟩ := hstop n' succ hadv
        obtain ⟨m, hm⟩ := (ih n' _ (hpos'.descend hInv)).2.1 hk
        refine ⟨m, ?_⟩
        unfold searchAux
        rw [hadv]
        exact hm
    · intro upd' hm
      unfold searchAux at hm
      cases hadv : advance t key (i + 1) t.nodes.length n with
      | hit m' =>
        rw [hadv] at hm
        simp at hm
      | stop n' succ =>
        rw [hadv] at hm
        obtain ⟨hpos', hknotlvl, hn', hsucc, hnext, hsplit⟩ := hstop n' succ hadv
        obtain ⟨hknot0, hle, hgt⟩ := (ih n' _ (hpos'.descend hInv)).2.2 upd' hm
        refine ⟨hknot0, ?_, ?_⟩
        · intro j hj
          rcases Nat.lt_or_ge j (i + 1) with hlt | hge
          · exact hle j (Nat.lt_succ_iff.mp hlt)
          · have hjeq : j = i + 1 := Nat.le_antisymm hj hge
            have hup : upd' j = (n', succ) := by
              rw [hgt j (by omega)]
              simp [hjeq]
            rw [hup, hjeq]
            exact ⟨hn', hsucc, hnext, hsplit⟩
        · intro j hj
          rw [hgt j (by omega)]
          simp [Nat.ne_of_gt hj]

end skiptable

theorem get?_set_self {α : Type} (l : List α) (k : Nat) (v : α) (h : k < l.length) :
    (l.set k v).get? k = some v := by
  induction l generalizing k with
  | nil => simp at h
  | cons a as ih =>
    cases k with
    | zero => rfl
    | succ k' => simpa using ih k' (by simpa using h)

theorem get?_set_other {α : Type} (l : List α) (k j : Nat) (v : α) (h : j ≠ k) :
    (l.set k v).get? j = l.get? j := by
  induction l generalizing k j with
  | nil => simp
  | cons a as ih =>
    cases k with
    | zero =>
      cases j with
      | zero => exact absurd rfl h
      | succ j' => simp
    | succ k' =>
      cases j with
      | zero => simp
      | succ j' => simpa using ih k' j' (fun hh => h (by rw [hh]))

namespace skiptable

theorem modifyNode_length (t : skiptable) (id : Nat) (f : SNode → SNode) :
    (t.modifyNode id f).nodes.length = t.nodes.length := by
  unfold modifyNode
  cases t.nodes.get? id <;> simp

theorem nodeAt_modifyNode (t : skiptable) (id : Nat) (f : SNode → SNode) (id' : Nat) :
    (t.modifyNode id f).nodeAt id' =
      if id' = id then (t.nodeAt id).map f else t.nodeAt id' := by
  unfold modifyNode nodeAt
  by_cases h : id' = id
  · subst h
    cases hg : t.nodes.get? id' with
    | none =>
      simp [hg]
      exact List.get?_eq_none.mp hg
    | some n =>
      simp only [hg, if_true, Option.map_some', if_pos rfl]
      exact get?_set_self _ _ _ (List.get?_eq_some.mp hg).1
  · cases hg : t.nodes.get? id with
    | none => simp [hg, h]
    | some n =>
      simp only [hg, if_neg h]
      exact get?_set_other _ _ _ _ h

theorem setNextLink_length (t : skiptable) (id lvl : Nat) (tgt : Option Nat) :
    (t.setNextLink id lvl tgt).nodes.length = t.nodes.length :=
  modifyNode_length t id _

theorem setNextLink_keyOf (t : skiptable) (id lvl : Nat) (tgt : Option Nat) (id' : Nat) :
    (t.setNextLink id lvl tgt).keyOf id' = t.keyOf id' := by
  unfold setNextLink keyOf
  rw [nodeAt_modifyNode]
  by_cases h : id' = id
  · subst h
    cases t.nodeAt id' <;> simp
  · simp [h]

theorem setNextLink_recIdxOf (t : skiptable) (id lvl : Nat) (tgt : Option Nat) (id' : Nat) :
    (t.setNextLink id lvl tgt).recIdxOf id' = t.recIdxOf id' := by
  unfold setNextLink recIdxOf
  rw [nodeAt_modifyNode]
  by_cases h : id' = id
  · subst h
    cases t.nodeAt id' <;> simp
  · simp [h]

theorem setNextLink_nodeNext_other (t : skiptable) (id lvl : Nat) (tgt : Option Nat)
    {id' : Nat} (h : id' ≠ id) (j : Nat) :
    (t.setNextLink id lvl tgt).nodeNext id' j = t.nodeNext id' j := by
  unfold setNextLink nodeNext
  rw [nodeAt_modifyNode]
  simp [h]

theorem setNextLink_nodeNext_lvl_ne (t : skiptable) (id lvl : Nat) (tgt : Option Nat)
    {j : Nat} (h : j ≠ lvl) (id' : Nat) :
    (t.setNextLink id lvl tgt).nodeNext id' j = t.nodeNext id' j := by
  unfold setNextLink nodeNext
  rw [nodeAt_modifyNode]
  by_cases hid : id' = id
  · subst hid
    cases t.nodeAt id' <;> simp [h]
  · simp [hid]

theorem setNextLink_nodeNext_self (t : skiptable) (id lvl : Nat) (tgt : Option Nat)
    {n : SNode} (h : t.nodeAt id = some n) :
    (t.setNextLink id lvl tgt).nodeNext id lvl = tgt := by
  unfold setNextLink nodeNext
  rw [nodeAt_modifyNode]
  simp [h]

theorem setRecIdx_length (t : skiptable) (id : Nat) (r : Int) :
    (t.setRecIdx id r).nodes.length = t.nodes.length :=
  modifyNode_length t id _

theorem setRecIdx_keyOf (t : skiptable) (id : Nat) (r : Int) (id' : Nat) :
    (t.setRecIdx id r).keyOf id' = t.keyOf id' := by
  unfold setRecIdx keyOf
  rw [nodeAt_modifyNode]
  by_cases h : id' = id
  · subst h
    cases t.nodeAt id' <;> simp
  · simp [h]

theorem setRecIdx_nodeNext (t : skiptable) (id : Nat) (r : Int) (id' j : Nat) :
    (t.setRecIdx id r).nodeNext id' j = t.nodeNext id' j := by
  unfold setRecIdx nodeNext
  rw [nodeAt_modifyNode]
  by_cases h : id' = id
  · subst h
    cases t.nodeAt id' <;> simp
  · simp [h]

theorem setRecIdx_recIdxOf_self (t : skiptable) (id : Nat) (r : Int)
    {n : SNode} (h : t.nodeAt id = some n) :
    (t.setRecIdx id r).recIdxOf id = r := by
  unfold setRecIdx recIdxOf
  rw [nodeAt_modifyNode]
  simp [h]

theorem setRecIdx_recIdxOf_other (t : skiptable) (id : Nat) (r : Int)
    {id' : Nat} (h : id' ≠ id) :
    (t.setRecIdx id r).recIdxOf id' = t.recIdxOf id' := by
  unfold setRecIdx recIdxOf
  rw [nodeAt_modifyNode]
  simp [h]

theorem chainSeg_congr {t t' : skiptable} {lvl : Nat} :
    ∀ {l : List Nat} {cur endc : Option Nat},
    (∀ id ∈ l, t'.nodeNext id lvl = t.nodeNext id lvl) →
    chainSeg t' lvl l cur endc = chainSeg t lvl l cur endc := by
  intro l
  induction l with
  | nil => intro cur endc _; rfl
  | cons j l ih =>
    intro cur endc h
    unfold chainSeg
    rw [h j (List.mem_cons_self j l)]
    rw [ih fun id hid => h id (List.mem_cons_of_mem j hid)]

theorem chainFrom_congr {t t' : skiptable}
    (hn : ∀ id j, t'.nodeNext id j = t.nodeNext id j) (lvl : Nat) :
    ∀ (fuel : Nat) (cur : Option Nat),
    chainFrom t' lvl fuel cur = chainFrom t lvl fuel cur := by
  intro fuel
  induction fuel with
  | zero => intro cur; rfl
  | succ fuel ih =>
    intro cur
    cases cur with
    | none => rfl
    | some id =>
      unfold chainFrom
      rw [hn id lvl, ih]

theorem chain_congr {t t' : skiptable}
    (hn : ∀ id j, t'.nodeNext id j = t.nodeNext id j)
    (hl : t'.nodes.length = t.nodes.length) (lvl : Nat) :
    t'.chain lvl = t.chain lvl := by
  unfold chain
  rw [hl, hn 0 lvl, chainFrom_congr hn]

theorem keysOf_congr {t t' : skiptable}
    (hk : ∀ id, t'.keyOf id = t.keyOf id) (l : List Nat) :
    keysOf t' l = keysOf t l := by
  unfold keysOf
  exact List.map_congr_left fun id _ => hk id

theorem seg_retarget {t t' : skiptable} {lvl : Nat} :
    ∀ (l : List Nat) (cur mid mid' : Option Nat) (hne : l ≠ []),
    chainSeg t lvl l cur mid = true →
    (∀ id ∈ l.dropLast, t'.nodeNext id lvl = t.nodeNext id lvl) →
    t'.nodeNext (l.getLast hne) lvl = mid' →
    chainSeg t' lvl l cur mid' = true := by
  intro l
  induction l with
  | nil => intro cur mid mid' hne; exact absurd rfl hne
  | cons j l ih =>
    intro cur mid mid' _ hseg hsame hlast
    obtain ⟨hc, hrest⟩ := chainSeg_cons.mp hseg
    cases l with
    | nil =>
      rw [chainSeg_cons]
      refine ⟨hc, ?_⟩
      rw [List.getLast_singleton] at hlast
      rw [hlast]
      exact chainSeg_nil.mpr rfl
    | cons k l' =>
      rw [chainSeg_cons]
      have hj : t'.nodeNext j lvl = t.nodeNext j lvl := by
        apply hsame
        rw [List.dropLast_cons_of_ne_nil (by simp)]
        exact List.mem_cons_self j _
      refine ⟨hc, ?_⟩
      rw [hj]
      refine ih _ mid mid' (by simp) hrest ?_ ?_
      · intro id hid
        apply hsame
        rw [List.dropLast_cons_of_ne_nil (by simp)]
        exact List.mem_cons_of_mem j hid
      · rw [← hlast]
        congr 1

end skiptable

namespace skiptable

theorem nodeAt_appendNode (t : skiptable) (x : SNode) (id : Nat) :
    ({ t with nodes := t.nodes ++ [x] } : skiptable).nodeAt id =
      if id < t.nodes.length then t.nodeAt id
      else if id = t.nodes.length then some x else none := by
  unfold nodeAt
  simp only
  by_cases h1 : id < t.nodes.length
  · rw [if_pos h1]
    exact List.get?_append h1
  · rw [if_neg h1]
    by_cases h2 : id = t.nodes.length
    · subst h2
      rw [if_pos rfl]
      exact List.get?_concat_length t.nodes x
    · rw [if_neg h2]
      refine List.get?_eq_none.mpr ?_
      rw [List.length_append]
      simp only [List.length_singleton]
      omega

theorem spliceLinks_length (t : skiptable) (upd : Nat → Nat × Option Nat) (newId : Nat) :
    ∀ i, (spliceLinks t upd newId i).nodes.length = t.nodes.length := by
  intro i
  induction i generalizing t with
  | zero => exact setNextLink_length t _ 0 _
  | succ i ih => rw [spliceLinks, ih, setNextLink_length]

theorem spliceLinks_keyOf (t : skiptable) (upd : Nat → Nat × Option Nat) (newId : Nat) :
    ∀ i id', (spliceLinks t upd newId i).keyOf id' = t.keyOf id' := by
  intro i
  induction i generalizing t with
  | zero => intro id'; exact setNextLink_keyOf t _ 0 _ id'
  | succ i ih =>
    intro id'
    rw [spliceLinks, ih, setNextLink_keyOf]

theorem spliceLinks_recIdxOf (t : skiptable) (upd : Nat → Nat × Option Nat) (newId : Nat) :
    ∀ i id', (spliceLinks t upd newId i).recIdxOf id' = t.recIdxOf id' := by
  intro i
  induction i generalizing t with
  | zero => intro id'; exact setNextLink_recIdxOf t _ 0 _ id'
  | succ i ih =>
    intro id'
    rw [spliceLinks, ih, setNextLink_recIdxOf]

theorem spliceLinks_nodeNext (t : skiptable) (upd : Nat → Nat × Option Nat) (newId : Nat) :
    ∀ (i : Nat), (∀ j, j ≤ i → (upd j).1 < t.nodes.length) →
    ∀ (id' j : Nat),
    (spliceLinks t upd newId i).nodeNext id' j =
      if j ≤ i ∧ id' = (upd j).1 then some newId else t.nodeNext id' j := by
  intro i
  induction i generalizing t with
  | zero =>
    intro hvalid id' j
    have hv0 := hvalid 0 (Nat.le_refl 0)
    obtain ⟨n0, hn0⟩ : ∃ n0, t.nodeAt (upd 0).1 = some n0 := by
      unfold nodeAt
      exact ⟨_, List.get?_eq_get hv0⟩
    unfold spliceLinks
    by_cases hj : j = 0
    · subst hj
      by_cases hid : id' = (upd 0).1
      · subst hid
        rw [setNextLink_nodeNext_self t _ 0 _ hn0]
        simp
      · rw [setNextLink_nodeNext_other t _ 0 _ hid]
        simp [hid]
    · rw [setNextLink_nodeNext_lvl_ne t _ 0 _ hj]
      have : ¬ (j ≤ 0 ∧ id' = (upd j).1) := fun ⟨hle, _⟩ => hj (Nat.le_zero.mp hle)
      rw [if_neg this]
  | succ i ih =>
    intro hvalid id' j
    rw [spliceLinks]
    have hvalid' : ∀ j, j ≤ i →
        (upd j).1 < (t.setNextLink (upd (i + 1)).1 (i + 1) (some newId)).nodes.length := by
      intro j hj
      rw [setNextLink_length]
      exact hvalid j (Nat.le_succ_of_le hj)
    rw [ih _ hvalid' id' j]
    have hvS := hvalid (i + 1) (Nat.le_refl _)
    obtain ⟨nS, hnS⟩ : ∃ nS, t.nodeAt (upd (i + 1)).1 = some nS := by
      unfold nodeAt
      exact ⟨_, List.get?_eq_get hvS⟩
    by_cases hj1 : j ≤ i ∧ id' = (upd j).1
    · rw [if_pos hj1, if_pos ⟨Nat.le_succ_of_le hj1.1, hj1.2⟩]
    · rw [if_neg hj1]
      by_cases hj2 : j ≤ i + 1 ∧ id' = (upd j).1
      · have hjeq : j = i + 1 := by
          rcases hj2 with ⟨hle, heq⟩
          rcases Nat.lt_or_ge j (i + 1) with hlt | hge
          · exact absurd ⟨Nat.lt_succ_iff.mp hlt, heq⟩ hj1
          · exact Nat.le_antisymm hle hge
        rw [if_pos hj2, hj2.2, hjeq]
        exact setNextLink_nodeNext_self t _ (i + 1) _ hnS
      · rw [if_neg hj2]
        by_cases hjl : j = i + 1
        · subst hjl
          have hid : id' ≠ (upd (i + 1)).1 := fun h => hj2 ⟨Nat.le_refl _, h⟩
          exact setNextLink_nodeNext_other t _ (i + 1) _ hid (i + 1)
        · exact setNextLink_nodeNext_lvl_ne t _ _ _ hjl id'

/-- Transport of the invariant across updates that keep the node arena
and do not shrink the record counter. -/
theorem Inv_of_eq_parts {t t' : skiptable} (hn : t'.nodes = t.nodes)
    (hr : t.next_record ≤ t'.next_record) (hInv : Inv t) : Inv t' := by
  have hnn : ∀ id j, t'.nodeNext id j = t.nodeNext id j := by
    intro id j
    unfold nodeNext nodeAt
    rw [hn]
  have hkk : ∀ id, t'.keyOf id = t.keyOf id := by
    intro id
    unfold keyOf nodeAt
    rw [hn]
  have hrr : ∀ id, t'.recIdxOf id = t.recIdxOf id := by
    intro id
    unfold recIdxOf nodeAt
    rw [hn]
  have hlen : t'.nodes.length = t.nodes.length := by rw [hn]
  have hchain : ∀ lvl, t'.chain lvl = t.chain lvl := chain_congr hnn hlen
  refine ⟨?_, ?_, ?_, ?_, ?_, ?_⟩
  · rw [hlen]; exact hInv.hlen
  · intro lvl
    rw [hchain lvl, hnn 0 lvl, chainSeg_congr fun id _ => hnn id lvl]
    exact hInv.chains lvl
  · rw [hchain 0, List.map_congr_left fun id _ => hkk id]
    exact hInv.sorted
  · intro lvl
    rw [hchain lvl, hchain (lvl + 1)]
    exact hInv.nested lvl
  · intro id hid
    rw [hchain 0] at hid
    rw [hlen]
    exact hInv.valid id hid
  · intro id hid
    rw [hchain 0] at hid
    rw [hrr]
    obtain ⟨h1, h2⟩ := hInv.recs id hid
    exact ⟨h1, lt_of_lt_of_le h2 (by exact_mod_cast hr)⟩

/-- Transport of the invariant across a record-index exchange. -/
theorem Inv_setRecIdx {t : skiptable} (hInv : Inv t) (m : Nat) {r : Int}
    (h0 : 0 ≤ r) (hlt : r < (t.next_record : Int)) : Inv (t.setRecIdx m r) := by
  have hnn : ∀ id j, (t.setRecIdx m r).nodeNext id j = t.nodeNext id j :=
    fun id j => setRecIdx_nodeNext t m r id j
  have hkk : ∀ id, (t.setRecIdx m r).keyOf id = t.keyOf id :=
    fun id => setRecIdx_keyOf t m r id
  have hlen : (t.setRecIdx m r).nodes.length = t.nodes.length := setRecIdx_length t m r
  have hchain : ∀ lvl, (t.setRecIdx m r).chain lvl = t.chain lvl := chain_congr hnn hlen
  have hnr : (t.setRecIdx m r).next_record = t.next_record := by
    unfold setRecIdx modifyNode
    cases t.nodes.get? m <;> rfl
  refine ⟨?_, ?_, ?_, ?_, ?_, ?_⟩
  · rw [hlen]; exact hInv.hlen
  · intro lvl
    rw [hchain lvl, hnn 0 lvl, chainSeg_congr fun id _ => hnn id lvl]
    exact hInv.chains lvl
  · rw [hchain 0, List.map_congr_left fun id _ => hkk id]
    exact hInv.sorted
  · intro lvl
    rw [hchain lvl, hchain (lvl + 1)]
    exact hInv.nested lvl
  · intro id hid
    rw [hchain 0] at hid
    rw [hlen]
    exact hInv.valid id hid
  · intro id hid
    rw [hchain 0] at hid
    rw [hnr]
    by_cases hm : id = m
    · subst hm
      cases hg : t.nodeAt id with
      | none =>
        have hrec : (t.setRecIdx id r).recIdxOf id = t.recIdxOf id := by
          unfold setRecIdx modifyNode recIdxOf nodeAt
          unfold nodeAt at hg
          rw [List.get?_eq_getElem?] at hg
          simp [hg]
        rw [hrec]
        exact hInv.recs id hid
      | some n =>
        rw [setRecIdx_recIdxOf_self t id r hg]
        exact ⟨h0, hlt⟩
    · rw [setRecIdx_recIdxOf_other t m r hm]
      exact hInv.recs id hid

end skiptable

namespace skiptable

theorem modifyNode_records (t : skiptable) (id : Nat) (f : SNode → SNode) :
    (t.modifyNode id f).records = t.records := by
  unfold modifyNode
  cases t.nodes.get? id <;> rfl

theorem modifyNode_next_record (t : skiptable) (id : Nat) (f : SNode → SNode) :
    (t.modifyNode id f).next_record = t.next_record := by
  unfold modifyNode
  cases t.nodes.get? id <;> rfl

theorem spliceLinks_records (t : skiptable) (upd : Nat → Nat × Option Nat) (newId : Nat) :
    ∀ i, (spliceLinks t upd newId i).records = t.records := by
  intro i
  induction i generalizing t with
  | zero => exact modifyNode_records t _ _
  | succ i ih =>
    rw [spliceLinks, ih]
    exact modifyNode_records t _ _

theorem spliceLinks_next_record (t : skiptable) (upd : Nat → Nat × Option Nat) (newId : Nat) :
    ∀ i, (spliceLinks t upd newId i).next_record = t.next_record := by
  intro i
  induction i generalizing t with
  | zero => exact modifyNode_next_record t _ _
  | succ i ih =>
    rw [spliceLinks, ih]
    exact modifyNode_next_record t _ _

theorem getLastD_cons_eq (y : Nat) (ys : List Nat) (d : Nat) :
    (y :: ys).getLastD d = (y :: ys).getLast (by simp) := by
  induction ys generalizing y d with
  | nil => rfl
  | cons z zs ih =>
    rw [List.getLastD_cons]
    exact (ih z y).trans (List.getLast_cons (by simp)).symm

theorem ne_getLast_of_mem_dropLast {l : List Nat} (hnd : l.Nodup) (hne : l ≠ [])
    {id : Nat} (hid : id ∈ l.dropLast) : id ≠ l.getLast hne := by
  intro h
  have hsplit := List.dropLast_append_getLast hne
  rw [← hsplit] at hnd
  have hdisj := List.disjoint_of_nodup_append hnd
  exact hdisj hid (by rw [h]; exact List.mem_singleton.mpr rfl)

end skiptable

namespace skiptable

theorem getLastD_eq_getLast {l : List Nat} (hne : l ≠ []) (d : Nat) :
    l.getLastD d = l.getLast hne := by
  cases l with
  | nil => exact absurd rfl hne
  | cons y ys => exact getLastD_cons_eq y ys d

theorem ne_getLastD_of_mem_dropLast {l : List Nat} (hnd : l.Nodup) (hne : l ≠ [])
    {id d : Nat} (hid : id ∈ l.dropLast) : id ≠ l.getLastD d := by
  rw [getLastD_eq_getLast hne]
  exact ne_getLast_of_mem_dropLast hnd hne hid

/-- Everything the splice branch of `insert` guarantees: the invariant is
preserved, the new node sits between the below-key and above-key parts on
every spliced level, and the bottom-level keys gain exactly the new key. -/
theorem splice_spec {t2 : skiptable} (hInv : Inv t2) {key : List Nat}
    {upd' : Nat → Nat × Option Nat} {level : Nat}
    (hle : ∀ j, j ≤ level →
      (upd' j).1 = (Cpart t2 key j).getLastD 0 ∧
      (upd' j).2 = (Dpart t2 key j).head? ∧
      t2.nodeNext (upd' j).1 j = (upd' j).2 ∧
      t2.chain j = Cpart t2 key j ++ Dpart t2 key j)
    {idx : Int} (h0idx : 0 ≤ idx) (hidxlt : idx < (t2.next_record : Int)) :
    Inv (insertedTable t2 key upd' idx level) ∧
    (∀ j, j ≤ level → (insertedTable t2 key upd' idx level).chain j =
        Cpart t2 key j ++ t2.nodes.length :: Dpart t2 key j) ∧
    (insertedTable t2 key upd' idx level).keyOf t2.nodes.length = key ∧
    (insertedTable t2 key upd' idx level).recIdxOf t2.nodes.length = idx ∧
    (insertedTable t2 key upd' idx level).records = t2.records ∧
    (insertedTable t2 key upd' idx level).next_record = t2.next_record ∧
    (insertedTable t2 key upd' idx level).nodes.length = t2.nodes.length + 1 ∧
    (∀ kk, kk ∈ ((insertedTable t2 key upd' idx level).chain 0).map
        (insertedTable t2 key upd' idx level).keyOf ↔
      kk = key ∨ kk ∈ (t2.chain 0).map t2.keyOf) := by
  have hlen2 := hInv.hlen
  set t3 : skiptable :=
    { t2 with
      nodes := t2.nodes ++
        [{ key := key, recIdx := idx
           next := fun j => if j ≤ level then (upd' j).2 else none }] } with ht3
  have hIT : insertedTable t2 key upd' idx level =
      spliceLinks t3 upd' t2.nodes.length level := rfl
  rw [hIT]
  set t4 := spliceLinks t3 upd' t2.nodes.length level with ht4
  have hlen3 : t3.nodes.length = t2.nodes.length + 1 := by
    rw [ht3]; simp
  have hk3lt : ∀ id, id < t2.nodes.length → t3.keyOf id = t2.keyOf id := by
    intro id hid
    unfold keyOf
    rw [ht3, nodeAt_appendNode, if_pos hid]
  have hr3lt : ∀ id, id < t2.nodes.length → t3.recIdxOf id = t2.recIdxOf id := by
    intro id hid
    unfold recIdxOf
    rw [ht3, nodeAt_appendNode, if_pos hid]
  have hn3lt : ∀ id, id < t2.nodes.length → ∀ j, t3.nodeNext id j = t2.nodeNext id j := by
    intro id hid j
    unfold nodeNext
    rw [ht3, nodeAt_appendNode, if_pos hid]
  have hk3new : t3.keyOf t2.nodes.length = key := by
    unfold keyOf
    rw [ht3, nodeAt_appendNode, if_neg (lt_irrefl _), if_pos rfl]
  have hr3new : t3.recIdxOf t2.nodes.length = idx := by
    unfold recIdxOf
    rw [ht3, nodeAt_appendNode, if_neg (lt_irrefl _), if_pos rfl]
  have hn3new : ∀ j, t3.nodeNext t2.nodes.length j =
      if j ≤ level then (upd' j).2 else none := by
    intro j
    unfold nodeNext
    rw [ht3, nodeAt_appendNode, if_neg (lt_irrefl _), if_pos rfl]
  have hmemlt : ∀ id ∈ t2.chain 0, id < t2.nodes.length := fun id h => (hInv.valid id h).2
  have hmem1 : ∀ id ∈ t2.chain 0, 1 ≤ id := fun id h => (hInv.valid id h).1
  have hCsub : ∀ j, Cpart t2 key j ⊆ t2.chain 0 := by
    intro j id hid
    exact (hInv.chain_sub_zero j).subset ((List.filter_sublist _).subset hid)
  have hDsub : ∀ j, Dpart t2 key j ⊆ t2.chain 0 := by
    intro j id hid
    exact (hInv.chain_sub_zero j).subset ((List.filter_sublist _).subset hid)
  have hup1 : ∀ j, j ≤ level → (upd' j).1 < t2.nodes.length := by
    intro j hj
    rw [(hle j hj).1]
    cases hC : Cpart t2 key j with
    | nil => simpa using hlen2
    | cons c cs =>
      have hmem : (Cpart t2 key j).getLastD 0 ∈ Cpart t2 key j := by
        rw [hC]; exact getLastD_mem_cons c cs 0
      rw [← hC]
      exact hmemlt _ (hCsub j hmem)
  have hvalid3 : ∀ j, j ≤ level → (upd' j).1 < t3.nodes.length := by
    intro j hj
    rw [hlen3]
    exact Nat.lt_succ_of_lt (hup1 j hj)
  have hlen4 : t4.nodes.length = t2.nodes.length + 1 := by
    rw [ht4, spliceLinks_length, hlen3]
  have hk4 : ∀ id, t4.keyOf id = t3.keyOf id := by
    intro id; rw [ht4, spliceLinks_keyOf]
  have hr4 : ∀ id, t4.recIdxOf id = t3.recIdxOf id := by
    intro id; rw [ht4, spliceLinks_recIdxOf]
  have hn4 : ∀ id j, t4.nodeNext id j =
      if j ≤ level ∧ id = (upd' j).1 then some t2.nodes.length else t3.nodeNext id j := by
    intro id j
    rw [ht4]
    exact spliceLinks_nodeNext t3 upd' _ level hvalid3 id j
  have hnr4 : t4.next_record = t2.next_record := by
    rw [ht4, spliceLinks_next_record, ht3]
  have hrec4 : t4.records = t2.records := by
    rw [ht4, spliceLinks_records, ht3]
  have hk4lt : ∀ id, id < t2.nodes.length → t4.keyOf id = t2.keyOf id :=
    fun id h => (hk4 id).trans (hk3lt id h)
  have hk4new : t4.keyOf t2.nodes.length = key := (hk4 _).trans hk3new
  have hr4new : t4.recIdxOf t2.nodes.length = idx := (hr4 _).trans hr3new
  have hn4other : ∀ id j, id < t2.nodes.length → ¬(j ≤ level ∧ id = (upd' j).1) →
      t4.nodeNext id j = t2.nodeNext id j := by
    intro id j hid hcond
    rw [hn4, if_neg hcond]
    exact hn3lt id hid j
  have hn4new : ∀ j, j ≤ level →
      t4.nodeNext t2.nodes.length j = (Dpart t2 key j).head? := by
    intro j hj
    rw [hn4, if_neg (by intro hcc; have := hup1 j hcc.1; omega), hn3new, if_pos hj,
      (hle j hj).2.1]
  have hdisj : ∀ j, j ≤ level → List.Disjoint (Cpart t2 key j) (Dpart t2 key j) := by
    intro j hj
    have hnd := hInv.chain_nodup j
    rw [(hle j hj).2.2.2] at hnd
    exact List.disjoint_of_nodup_append hnd
  have hCnodup : ∀ j, (Cpart t2 key j).Nodup :=
    fun j => (hInv.chain_nodup j).sublist (List.filter_sublist _)
  have hn4D : ∀ j, j ≤ level → ∀ id ∈ Dpart t2 key j,
      t4.nodeNext id j = t2.nodeNext id j := by
    intro j hj id hid
    apply hn4other id j (hmemlt id (hDsub j hid))
    rintro ⟨h1, h2⟩
    rw [(hle j hj).1] at h2
    cases hC : Cpart t2 key j with
    | nil =>
      rw [hC] at h2
      have := hmem1 id (hDsub j hid)
      simp at h2
      omega
    | cons c cs =>
      have hmemC : id ∈ Cpart t2 key j := by
        rw [hC, h2, hC]
        exact getLastD_mem_cons c cs 0
      exact hdisj j hj hmemC hid
  have hseglo : ∀ j, j ≤ level →
      chainSeg t4 j (Cpart t2 key j ++ t2.nodes.length :: Dpart t2 key j)
        (t4.nodeNext 0 j) none = true := by
    intro j hj
    obtain ⟨hu1, hu2, hnext, hsplit⟩ := hle j hj
    have hchains := hInv.chains j
    rw [hsplit] at hchains
    obtain ⟨mid, hCseg, hDseg⟩ := chainSeg_append.mp hchains
    have hmid : mid = (Dpart t2 key j).head? := by
      cases hD : Dpart t2 key j with
      | nil =>
        rw [hD] at hDseg
        rw [chainSeg_nil.mp hDseg]
        rfl
      | cons d ds =>
        rw [hD] at hDseg
        rw [(chainSeg_cons.mp hDseg).1]
        rfl
    have hDseg4 : chainSeg t4 j (Dpart t2 key j) (Dpart t2 key j).head? none = true := by
      rw [chainSeg_congr (hn4D j hj), ← hmid]
      exact hDseg
    refine chainSeg_append.mpr ⟨some t2.nodes.length, ?_, ?_⟩
    · by_cases hCne' : Cpart t2 key j = []
      · have hstart : t4.nodeNext 0 j = some t2.nodes.length := by
          rw [hn4, if_pos ⟨hj, by rw [hu1, hCne']; rfl⟩]
        rw [hCne']
        exact chainSeg_nil.mpr hstart
      · have hCne : Cpart t2 key j ≠ [] := hCne'
        have hupmem : (upd' j).1 ∈ Cpart t2 key j := by
          obtain ⟨c, cs, hC⟩ := List.exists_cons_of_ne_nil hCne
          rw [hu1, hC]
          exact getLastD_mem_cons c cs 0
        have h0ne : (0 : Nat) ≠ (upd' j).1 := by
          have := hmem1 _ (hCsub j hupmem)
          omega
        have hstart : t4.nodeNext 0 j = t2.nodeNext 0 j :=
          hn4other 0 j hlen2 fun hcc => h0ne hcc.2
        rw [hstart]
        refine seg_retarget (Cpart t2 key j) _ mid (some t2.nodes.length) hCne hCseg ?_ ?_
        · intro id hid
          apply hn4other id j
            (hmemlt id (hCsub j ((List.dropLast_sublist _).subset hid)))
          rintro ⟨h1, h2⟩
          rw [hu1] at h2
          exact ne_getLastD_of_mem_dropLast (hCnodup j) hCne hid h2
        · have hgl : (Cpart t2 key j).getLast hCne = (upd' j).1 := by
            rw [hu1]
            exact (getLastD_eq_getLast hCne 0).symm
          rw [hgl, hn4, if_pos ⟨hj, rfl⟩]
    · refine chainSeg_cons.mpr ⟨rfl, ?_⟩
      rw [hn4new j hj]
      exact hDseg4
  have hchainlo : ∀ j, j ≤ level →
      t4.chain j = Cpart t2 key j ++ t2.nodes.length :: Dpart t2 key j := by
    intro j hj
    have hlenle : (Cpart t2 key j ++ t2.nodes.length :: Dpart t2 key j).length ≤
        t4.nodes.length := by
      have h1 := hInv.chain_lt_len j
      rw [(hle j hj).2.2.2, List.length_append] at h1
      rw [hlen4, List.length_append, List.length_cons]
      omega
    show chainFrom t4 j t4.nodes.length (t4.nodeNext 0 j) = _
    exact chainFrom_of_seg (hseglo j hj) _ hlenle
  have hseghi : ∀ j, level < j →
      chainSeg t4 j (t2.chain j) (t2.nodeNext 0 j) none = true := by
    intro j hj
    have hcong : ∀ id ∈ t2.chain j, t4.nodeNext id j = t2.nodeNext id j := by
      intro id hid
      exact hn4other id j (hmemlt id ((hInv.chain_sub_zero j).subset hid))
        fun hcc => absurd hcc.1 (by omega)
    rw [chainSeg_congr hcong]
    exact hInv.chains j
  have hchainhi : ∀ j, level < j → t4.chain j = t2.chain j := by
    intro j hj
    have hstart : t4.nodeNext 0 j = t2.nodeNext 0 j :=
      hn4other 0 j hlen2 fun hcc => absurd hcc.1 (by omega)
    have hlenle : (t2.chain j).length ≤ t4.nodes.length := by
      have := hInv.chain_lt_len j
      rw [hlen4]
      omega
    show chainFrom t4 j t4.nodes.length (t4.nodeNext 0 j) = _
    rw [hstart]
    exact chainFrom_of_seg (hseghi j hj) _ hlenle
  have h0le : (0 : Nat) ≤ level := Nat.zero_le _
  have hmapC : (Cpart t2 key 0).map t4.keyOf = (Cpart t2 key 0).map t2.keyOf :=
    List.map_congr_left fun id hid => hk4lt id (hmemlt id (hCsub 0 hid))
  have hmapD : (Dpart t2 key 0).map t4.keyOf = (Dpart t2 key 0).map t2.keyOf :=
    List.map_congr_left fun id hid => hk4lt id (hmemlt id (hDsub 0 hid))
  have hmap : (t4.chain 0).map t4.keyOf =
      (Cpart t2 key 0).map t2.keyOf ++ key :: (Dpart t2 key 0).map t2.keyOf := by
    rw [hchainlo 0 h0le, List.map_append, List.map_cons, hmapC, hmapD, hk4new]
  have hCkey : ∀ kk ∈ (Cpart t2 key 0).map t2.keyOf, lexLt kk key := by
    intro kk hkk
    obtain ⟨id, hid, rfl⟩ := List.mem_map.mp hkk
    exact of_decide_eq_true (List.mem_filter.mp hid).2
  have hDkey : ∀ kk ∈ (Dpart t2 key 0).map t2.keyOf, lexLt key kk := by
    intro kk hkk
    obtain ⟨id, hid, rfl⟩ := List.mem_map.mp hkk
    exact of_decide_eq_true (List.mem_filter.mp hid).2
  have hsorted4 : List.Pairwise lexLt ((t4.chain 0).map t4.keyOf) := by
    rw [hmap]
    refine List.pairwise_append.mpr ⟨?_, ?_, ?_⟩
    · exact hInv.sorted.sublist ((List.filter_sublist _).map _)
    · rw [List.pairwise_cons]
      exact ⟨hDkey, hInv.sorted.sublist ((List.filter_sublist _).map _)⟩
    · intro a ha b hb
      rcases List.mem_cons.mp hb with rfl | hb'
      · exact hCkey a ha
      · exact lexLt_trans (hCkey a ha) (hDkey b hb')
  have hInv4 : Inv t4 := by
    refine ⟨?_, ?_, ?_, ?_, ?_, ?_⟩
    · rw [hlen4]; omega
    · intro lvl
      by_cases hl : lvl ≤ level
      · rw [hchainlo lvl hl]
        exact hseglo lvl hl
      · rw [hchainhi lvl (by omega)]
        have hstart : t4.nodeNext 0 lvl = t2.nodeNext 0 lvl :=
          hn4other 0 lvl hlen2 fun hcc => absurd hcc.1 hl
        rw [hstart]
        exact hseghi lvl (by omega)
    · exact hsorted4
    · intro lvl
      by_cases h1 : lvl + 1 ≤ level
      · rw [hchainlo (lvl + 1) h1, hchainlo lvl (by omega)]
        exact List.Sublist.append (List.Sublist.filter _ (hInv.nested lvl))
          (List.Sublist.cons₂ _ (List.Sublist.filter _ (hInv.nested lvl)))
      · by_cases h2 : lvl ≤ level
        · rw [hchainhi (lvl + 1) (by omega), hchainlo lvl h2]
          have hsub := hInv.nested lvl
          rw [(hle lvl h2).2.2.2] at hsub
          exact hsub.trans
            (List.Sublist.append_left (List.Sublist.cons _ (List.Sublist.refl _)) _)
        · rw [hchainhi (lvl + 1) (by omega), hchainhi lvl (by omega)]
          exact hInv.nested lvl
    · intro id hid
      rw [hchainlo 0 h0le] at hid
      rw [hlen4]
      rcases List.mem_append.mp hid with h | h
      · have := hInv.valid id (hCsub 0 h)
        omega
      · rcases List.mem_cons.mp h with rfl | h'
        · omega
        · have := hInv.valid id (hDsub 0 h')
          omega
    · intro id hid
      rw [hchainlo 0 h0le] at hid
      rw [hnr4]
      rcases List.mem_append.mp hid with h | h
      · rw [hr4 id, hr3lt id (hmemlt id (hCsub 0 h))]
        exact hInv.recs id (hCsub 0 h)
      · rcases List.mem_cons.mp h with rfl | h'
        · rw [hr4new]
          exact ⟨h0idx, hidxlt⟩
        · rw [hr4 id, hr3lt id (hmemlt id (hDsub 0 h'))]
          exact hInv.recs id (hDsub 0 h')
  have hiff : ∀ kk, kk ∈ (t4.chain 0).map t4.keyOf ↔
      kk = key ∨ kk ∈ (t2.chain 0).map t2.keyOf := by
    intro kk
    rw [hmap, (hle 0 h0le).2.2.2, List.map_append, List.mem_append, List.mem_append,
      List.mem_cons]
    tauto
  exact ⟨hInv4, hchainlo, hk4new, hr4new, hrec4, hnr4, hlen4, hiff⟩

end skiptable

namespace skiptable

/-- The freshly constructed table satisfies the structural invariant. -/
theorem inv_init (cfg : config_opts) : Inv (init cfg) := by
  have hc : ∀ lvl, (init cfg).chain lvl = [] := fun lvl => rfl
  refine ⟨?_, ?_, ?_, ?_, ?_, ?_⟩
  · exact Nat.zero_lt_one
  · intro lvl
    rw [hc lvl]
    rfl
  · rw [hc 0]
    exact List.Pairwise.nil
  · intro lvl
    rw [hc lvl, hc (lvl + 1)]
  · intro id hid
    rw [hc 0] at hid
    exact absurd hid (List.not_mem_nil id)
  · intro id hid
    rw [hc 0] at hid
    exact absurd hid (List.not_mem_nil id)

/-- Behaviour of `skiptable::insert` on an unlocked table whose `malloc`
succeeds: the insert returns a node carrying the key, wired into the
bottom chain, owning the freshly reserved record slot, and the set of
bottom-chain keys grows by exactly the inserted key. -/
theorem insert_spec {t : skiptable} (hInv : Inv t) (key data : List Nat)
    (size level : Nat) (hlock : t.locked = false) (hsize : size ≤ data.length) :
    ∃ id t', t.insert key data size level = (some id, t') ∧ Inv t' ∧
      id ∈ t'.chain 0 ∧ t'.keyOf id = key ∧
      t'.recIdxOf id = (t.next_record : Int) ∧
      t'.records t.next_record = data.take size ∧
      t'.next_record = t.next_record + 1 ∧
      (∀ kk, kk ∈ (t'.chain 0).map t'.keyOf ↔
        kk = key ∨ kk ∈ (t.chain 0).map t.keyOf) := by
  unfold insert
  rw [hlock]
  simp only [Bool.false_eq_true, if_false, if_pos hsize]
  set T2 : skiptable :=
    { config := t.config, nodes := t.nodes
      records := fun r => if r = t.next_record then List.take size data else t.records r
      total_data_size := add64 t.total_data_size size, data_size := t.data_size
      is_locked := t.is_locked, next_record := t.next_record + 1 } with hT2
  have hT2nodes : T2.nodes = t.nodes := by rw [hT2]
  have hT2nr : T2.next_record = t.next_record + 1 := by rw [hT2]
  have hInv2 : Inv T2 := Inv_of_eq_parts hT2nodes (by rw [hT2nr]; omega) hInv
  have hnn2 : ∀ id j, T2.nodeNext id j = t.nodeNext id j := by
    intro id j
    unfold nodeNext nodeAt
    rw [hT2nodes]
  have hkey2 : ∀ id, T2.keyOf id = t.keyOf id := by
    intro id
    unfold keyOf nodeAt
    rw [hT2nodes]
  have hrec2 : ∀ id, T2.recIdxOf id = t.recIdxOf id := by
    intro id
    unfold recIdxOf nodeAt
    rw [hT2nodes]
  have hchain20 : T2.chain 0 = t.chain 0 := chain_congr hnn2 (by rw [hT2nodes]) 0
  have hr2rec : T2.records t.next_record = data.take size := by
    rw [hT2]
    simp
  have hspec := @searchAux_spec T2 key hInv2 level 0 (fun x => (0, none)) (Or.inl rfl)
  cases hres : T2.searchAux key level 0 fun x => (0, none) with
  | found m =>
    dsimp only
    obtain ⟨hmem, hkeym⟩ := hspec.1 m hres
    have hmem0 : m ∈ t.chain 0 := hchain20 ▸ hmem
    have hrb := hInv.recs m hmem0
    have hlt : T2.recIdxOf m < (t.next_record : Int) := by
      rw [hrec2 m]
      exact hrb.2
    rw [if_neg (by omega), if_pos hlt]
    obtain ⟨n, hn⟩ : ∃ n, T2.nodeAt m = some n := by
      unfold nodeAt
      exact ⟨_, List.get?_eq_get (by rw [hT2nodes]; exact (hInv.valid m hmem0).2)⟩
    set T3 := T2.setRecIdx m (t.next_record : Int) with hT3e
    set DS := add64 (sub64 T3.data_size (T3.records (T2.recIdxOf m).toNat).length) size
      with hDS
    have hInv3 : Inv T3 :=
      Inv_setRecIdx hInv2 m (Int.natCast_nonneg _)
        (by rw [hT2nr]; exact_mod_cast Nat.lt_succ_self _)
    have hnn3 : ∀ id j, T3.nodeNext id j = t.nodeNext id j :=
      fun id j => (setRecIdx_nodeNext T2 m _ id j).trans (hnn2 id j)
    have hlen3 : T3.nodes.length = t.nodes.length := by
      rw [hT3e, setRecIdx_length, hT2nodes]
    have hkey3 : ∀ id, T3.keyOf id = t.keyOf id :=
      fun id => (setRecIdx_keyOf T2 m _ id).trans (hkey2 id)
    have hchain3 : T3.chain 0 = t.chain 0 := chain_congr hnn3 hlen3 0
    have hnnF : ∀ id j, ({ T3 with data_size := DS } : skiptable).nodeNext id j =
        T3.nodeNext id j := fun _ _ => rfl
    have hkeyF : ∀ id, ({ T3 with data_size := DS } : skiptable).keyOf id =
        T3.keyOf id := fun _ => rfl
    have hchainF : ({ T3 with data_size := DS } : skiptable).chain 0 = T3.chain 0 :=
      chain_congr hnnF rfl 0
    refine ⟨m, { T3 with data_size := DS }, rfl, ?_, ?_, ?_, ?_, ?_, ?_, ?_⟩
    · refine Inv_of_eq_parts ?_ ?_ hInv3
      · rfl
      · exact Nat.le_refl _
    · rw [hchainF, hchain3]
      exact hmem0
    · rw [hkeyF m, hkey3 m]
      exact (hkey2 m).symm.trans hkeym
    · have hrF : ({ T3 with data_size := DS } : skiptable).recIdxOf m =
          T3.recIdxOf m := rfl
      rw [hrF, hT3e]
      exact setRecIdx_recIdxOf_self T2 m _ hn
    · exact (congrFun (modifyNode_records T2 m _) t.next_record).trans hr2rec
    · exact (modifyNode_next_record T2 m _).trans hT2nr
    · intro kk
      rw [hchainF, List.map_congr_left fun id _ => hkeyF id, hchain3,
        List.map_congr_left fun id _ => hkey3 id]
      constructor
      · exact Or.inr
      · rintro (rfl | h)
        · exact List.mem_map.mpr ⟨m, hmem0, (hkey2 m).symm.trans hkeym⟩
        · exact h
  | splice upd' =>
    dsimp only
    obtain ⟨hknot, hle', hgt'⟩ := hspec.2.2 upd' hres
    obtain ⟨hInv4, hchainlo, hk4new, hr4new, hrec4, hnr4, hlen4, hiff⟩ :=
      splice_spec hInv2 hle' (Int.natCast_nonneg t.next_record)
        (by rw [hT2nr]; exact_mod_cast Nat.lt_succ_self _)
    set T4 := insertedTable T2 key upd' (t.next_record : Int) level with hT4e
    set DS := add64 T4.data_size size with hDS
    have hnn5 : ∀ id j, ({ T4 with data_size := DS } : skiptable).nodeNext id j =
        T4.nodeNext id j := fun _ _ => rfl
    have hkey5 : ∀ id, ({ T4 with data_size := DS } : skiptable).keyOf id =
        T4.keyOf id := fun _ => rfl
    have hchain5 : ({ T4 with data_size := DS } : skiptable).chain 0 = T4.chain 0 :=
      chain_congr hnn5 rfl 0
    refine ⟨T2.nodes.length, { T4 with data_size := DS }, rfl, ?_, ?_, ?_, ?_, ?_, ?_, ?_⟩
    · refine Inv_of_eq_parts ?_ ?_ hInv4
      · rfl
      · exact Nat.le_refl _
    · rw [hchain5, hchainlo 0 (Nat.zero_le _)]
      exact List.mem_append_right _ (List.mem_cons_self _ _)
    · exact (hkey5 _).trans hk4new
    · have hrF : ({ T4 with data_size := DS } : skiptable).recIdxOf T2.nodes.length =
          T4.recIdxOf T2.nodes.length := rfl
      rw [hrF]
      exact hr4new
    · exact (congrFun hrec4 t.next_record).trans hr2rec
    · exact hnr4.trans hT2nr
    · intro kk
      rw [hchain5, List.map_congr_left fun id _ => hkey5 id, hiff kk, hchain20,
        List.map_congr_left fun id _ => hkey2 id]

end skiptable

namespace skiptable

/-- An insert that returns a node implies the table was unlocked and the
allocation request was satisfiable. -/
theorem insert_some_cond {t : skiptable} {key data : List Nat} {size level : Nat}
    {id : Nat} {t' : skiptable} (h : t.insert key data size level = (some id, t')) :
    t.locked = false ∧ size ≤ data.length := by
  unfold insert at h
  cases hl : t.locked with
  | true =>
    rw [hl, if_pos rfl] at h
    exact absurd (congrArg Prod.fst h) (by simp)
  | false =>
    rw [hl] at h
    simp only [Bool.false_eq_true, if_false] at h
    refine ⟨rfl, ?_⟩
    by_contra hs
    rw [if_neg hs] at h
    exact absurd (congrArg Prod.fst h) (by simp)

/-- A failed insert leaves the node arena unchanged and does not shrink
the record counter. -/
theorem insert_none_parts {t : skiptable} (key data : List Nat) (size level : Nat)
    {t' : skiptable} (h : t.insert key data size level = (none, t')) :
    t'.nodes = t.nodes ∧ t.next_record ≤ t'.next_record := by
  unfold insert at h
  cases hl : t.locked with
  | true =>
    rw [hl, if_pos rfl] at h
    have h2 : t = t' := congrArg Prod.snd h
    rw [← h2]
    exact ⟨rfl, Nat.le_refl _⟩
  | false =>
    rw [hl] at h
    simp only [Bool.false_eq_true, if_false] at h
    by_cases hs : size ≤ data.length
    · rw [if_pos hs] at h
      split at h
      · split at h
        · exact absurd (congrArg Prod.fst h) (by simp)
        · split at h
          · exact absurd (congrArg Prod.fst h) (by simp)
          · have h2 : _ = t' := congrArg Prod.snd h
            rw [← h2]
            exact ⟨rfl, Nat.le_succ _⟩

      · exact absurd (congrArg Prod.fst h) (by simp)
    · rw [if_neg hs] at h
      have h2 : _ = t' := congrArg Prod.snd h
      rw [← h2]
      exact ⟨rfl, Nat.le_succ _⟩

/-- Tables with the same arena have the same bottom-level keys. -/
theorem chainKeys_congr_nodes {t t' : skiptable} (hn : t'.nodes = t.nodes) :
    t'.chainKeys = t.chainKeys := by
  have hk : ∀ id, t'.keyOf id = t.keyOf id := by
    intro id
    unfold keyOf nodeAt
    rw [hn]
  have hnn : ∀ id j, t'.nodeNext id j = t.nodeNext id j := by
    intro id j
    unfold nodeNext nodeAt
    rw [hn]
  have hc : t'.chain 0 = t.chain 0 := chain_congr hnn (by rw [hn]) 0
  unfold chainKeys
  rw [hc]
  exact List.map_congr_left fun id _ => hk id

/-- Any sequence of inserts preserves the invariant, and the bottom-level
keys of the final table are exactly the keys of the successful inserts
together with the keys already present. -/
theorem runInserts_spec :
    ∀ (ops : List (List Nat × List Nat × Nat × Nat)) (t : skiptable), Inv t →
    Inv (runInserts t ops).1 ∧
    (∀ k, k ∈ (runInserts t ops).1.chainKeys ↔
      k ∈ (runInserts t ops).2 ∨ k ∈ t.chainKeys) := by
  intro ops
  induction ops with
  | nil =>
    intro t hInv
    exact ⟨hInv, fun k => by simp [runInserts]⟩
  | cons op rest ih =>
    intro t hInv
    obtain ⟨key, d, s, l⟩ := op
    unfold runInserts
    cases h : t.insert key d s l with
    | mk ores t2 =>
      cases ores with
      | some id =>
        obtain ⟨hl, hs⟩ := insert_some_cond h
        obtain ⟨id0, t0, heq, hInv0, hmem0, hkey0, hrec0, hrecs0, hnr0, hiff0⟩ :=
          insert_spec hInv key d s l hl hs
        rw [h] at heq
        have ht : t2 = t0 := congrArg Prod.snd heq
        subst ht
        dsimp only
        obtain ⟨ihInv, ihiff⟩ := ih t2 hInv0
        refine ⟨ihInv, fun k => ?_⟩
        rw [ihiff k, List.mem_cons]
        unfold chainKeys
        rw [hiff0 k]
        tauto
      | none =>
        have hparts := insert_none_parts key d s l h
        have hInv2 : Inv t2 := Inv_of_eq_parts hparts.1 hparts.2 hInv
        have hkeys : t2.chainKeys = t.chainKeys := chainKeys_congr_nodes hparts.1
        dsimp only
        obtain ⟨ihInv, ihiff⟩ := ih t2 hInv2
        exact ⟨ihInv, fun k => by rw [ihiff k, hkeys]⟩

end skiptable

/-- C4: for every memtable built by any sequence of `insert` operations,
the bottom-level chain (from `first()` via `iterate(0)`) lists the live
keys in strictly ascending lexicographic order — so it visits every live
key exactly once, with at most one node per key. -/
theorem memtable_bottom_chain_sorted_and_live
    (cfg : config_opts) (ops : List (List Nat × List Nat × Nat × Nat)) :
    List.Pairwise lexLt (skiptable.runInserts (skiptable.init cfg) ops).1.chainKeys ∧
    (∀ k, k ∈ (skiptable.runInserts (skiptable.init cfg) ops).1.chainKeys ↔
      k ∈ (skiptable.runInserts (skiptable.init cfg) ops).2) := by
  obtain ⟨hInvF, hiff⟩ :=
    skiptable.runInserts_spec ops (skiptable.init cfg) (skiptable.inv_init cfg)
  refine ⟨hInvF.sorted, fun k => ?_⟩
  rw [hiff k]
  have hinit : (skiptable.init cfg).chainKeys = [] := rfl
  rw [hinit]
  simp

/-- C8: on a store whose active memtable is well-formed and unlocked,
`put` of a zero-length value succeeds (`insert` returns a node, not
failure), and a subsequent `get` of the key succeeds and yields the
zero-length value. -/
theorem kvstore_put_get_zero_length_value (S : kvstore) (key : List Nat) (lvl : Nat)
    (hInv : skiptable.Inv S.mtable) (hlock : S.mtable.locked = false) :
    ∃ n S', kvstore.put S key [] 0 lvl = some (n, S') ∧
      kvstore.get S' key = some (some []) := by
  obtain ⟨id, t', heq, hInv', hmem', hkey', hrec', hrecs', hnr', hiff'⟩ :=
    skiptable.insert_spec hInv key [] 0 lvl hlock (Nat.le_refl 0)
  have hget1 : t'.getNode (some id) = some [] := by
    unfold skiptable.getNode
    dsimp only
    rw [hrec', hnr']
    rw [if_neg (by push_cast; omega)]
    rw [Int.toNat_natCast, hrecs']
    rfl
  have hkeymem : key ∈ skiptable.keysOf t' (t'.chain 0) := by
    unfold skiptable.keysOf
    exact (hiff' key).mpr (Or.inl rfl)
  obtain ⟨m, hfind⟩ := skiptable.find_complete hInv' hkeymem
  obtain ⟨hm0, hmk⟩ := skiptable.find_sound hInv' hfind
  have hmid : m = id :=
    skiptable.eq_of_pairwise_keys hInv'.sorted hm0 hmem' (hmk.trans hkey'.symm)
  rw [hmid] at hfind
  have hget : t'.get key = some [] := by
    unfold skiptable.get
    rw [hfind]
    exact hget1
  unfold kvstore.put
  rw [heq]
  dsimp only
  refine ⟨id, _, rfl, ?_⟩
  unfold kvstore.get
  dsimp only
  rw [hget]

/-- C8 witness: `kvstore_put_get_zero_length_value` applied to a fresh
store with default options and the one-byte key `"a"`. -/
theorem kvstore_put_get_zero_length_value_witness :
    skiptable.Inv (kvstore.init {}).mtable ∧
    (kvstore.init {}).mtable.locked = false ∧
    ∃ n S', kvstore.put (kvstore.init {}) [97] [] 0 0 = some (n, S') ∧
      kvstore.get S' [97] = some (some []) :=
  ⟨skiptable.inv_init _, rfl,
    kvstore_put_get_zero_length_value (kvstore.init {}) [97] 0
      (skiptable.inv_init _) rfl⟩
